import Mathlib

/-!
Shallow embedding of the one-dimensional optimization library of this
repository (`app/optim/methods.py` and `app/optim/selection.py`).

Numbers are modelled by an arbitrary linear ordered field `α`
(instantiated at `ℚ` for concrete runs, and at `ℝ` where the golden-section
constant is needed).  Python's `while` loops are modelled by structural
recursion on the remaining iteration budget (`max_iter` minus the number of
iterations already done), which is exactly the quantity the source loop
conditions `iterations < max_iter` count down.  Functions that `raise` are
modelled with `Except`.

The source computes the golden-section constant `resphi = 2 - φ`,
`φ = (1 + √5)/2`, a fixed irrational number.  The embedding takes `resphi`
as an explicit parameter (`golden_section` and `auto_select_and_run` receive
it last); the source's value is characterized exactly by
`resphi ^ 2 - 3 * resphi + 1 = 0 ∧ 0 < resphi ∧ resphi < 1/2`, and theorems
that depend on the value assume that characterization and are instantiated
at `resphi = 2 - (1 + √5)/2 : ℝ`.
-/

namespace Optim

/-- One history record.  The source stores string-keyed dicts whose key sets
depend on the method (see the module docstring of `methods.py`); here each
key set is one constructor. -/
inductive HistRec (α : Type) where
  | point (x f : α)
  | interval (a b x1 x2 f1 f2 : α)
  | fin (a b x f : α)
  | newtonRec (x df d2f f : α)
  | secantRec (x g f : α)
  deriving DecidableEq

/-- Mirror of the dataclass `OptimizationResult` in `methods.py`. -/
structure OptimizationResult (α : Type) where
  x_min : α
  f_min : α
  iterations : ℕ
  history : List (HistRec α)
  method : String
  deriving DecidableEq

/-- Error taxonomy.  The source raises `ValueError` / `ZeroDivisionError`
with distinct messages; the spec names the categories, which we use as
constructor names. -/
inductive OptError where
  | invalidBounds
  | invalidSampleCount
  | invalidTolerance
  | invalidDelta
  | missingSecondDerivative
  | degenerateCurvature
  | insufficientParameters
  | insufficientData
  | unknownPrefer
  deriving DecidableEq

instance {ε β : Type} [DecidableEq ε] [DecidableEq β] : DecidableEq (Except ε β) :=
  fun x y =>
    match x, y with
    | .error e, .error e' => decidable_of_iff (e = e') (by simp)
    | .error _, .ok _ => .isFalse (by simp)
    | .ok _, .error _ => .isFalse (by simp)
    | .ok v, .ok v' => decidable_of_iff (v = v') (by simp)

variable {α : Type} [LinearOrderedField α]

/-- `np.linspace a b n`: `n` points `a + i * (b - a) / (n - 1)`,
`i = 0, …, n-1` (exact-arithmetic model; for `n ≥ 2` the last point is
exactly `b`). -/
def linspace (a b : α) (n : ℕ) : List α :=
  (List.range n).map (fun i : ℕ => a + (b - a) * (i : α) / ((n - 1 : ℕ) : α))

/-- Helper for `np.argmin`: scan the remaining list `l`, whose first element
sits at absolute position `i`; `bv`/`bi` are the best value and its (first)
absolute position seen so far.  Updates only on a strict decrease, so the
first occurrence of the minimum wins, as `np.argmin` documents. -/
def argminFrom (bv : α) (bi : ℕ) (i : ℕ) : List α → ℕ
  | [] => bi
  | y :: ys => if y < bv then argminFrom y i (i + 1) ys else argminFrom bv bi (i + 1) ys

/-- `np.argmin`: index of the first occurrence of the least element
(`0` on the empty list, which the source never queries). -/
def argminIdx : List α → ℕ
  | [] => 0
  | x :: xs => argminFrom x 0 1 xs

/-- Mirror of `passive_search` in `methods.py`. -/
def passive_search (f : α → α) (bounds : α × α) (samples : ℕ) :
    Except OptError (OptimizationResult α) :=
  let a := bounds.1
  let b := bounds.2
  if ¬ a < b then .error .invalidBounds
  else if samples < 2 then .error .invalidSampleCount
  else
    let xs := linspace a b samples
    let f_vals := xs.map f
    let history := xs.map (fun x => HistRec.point x (f x))
    let idx := argminIdx f_vals
    let x_min := xs.getD idx 0
    let f_min := f_vals.getD idx 0
    .ok ⟨x_min, f_min, samples, history, "Пассивный поиск"⟩

/-- Output of the `while` loop of `dichotomy`: final bounds, the records
appended during the loop, and the number of narrowing iterations. -/
structure DichLoopOut (α : Type) where
  a : α
  b : α
  hist : List (HistRec α)
  iters : ℕ
  deriving DecidableEq

/-- The `while (b - a) > tol and iterations < max_iter` loop of `dichotomy`,
by recursion on the remaining budget. -/
def dichotomy_loop (f : α → α) (tol delta : α) : ℕ → α → α → DichLoopOut α
  | 0, a, b => ⟨a, b, [], 0⟩
  | fuel + 1, a, b =>
    if b - a > tol then
      let m := (a + b) / 2
      let x1 := m - delta
      let x2 := m + delta
      let f1 := f x1
      let f2 := f x2
      let r := HistRec.interval a b x1 x2 f1 f2
      if f1 < f2 then
        let out := dichotomy_loop f tol delta fuel a x2
        ⟨out.a, out.b, r :: out.hist, out.iters + 1⟩
      else
        let out := dichotomy_loop f tol delta fuel x1 b
        ⟨out.a, out.b, r :: out.hist, out.iters + 1⟩
    else ⟨a, b, [], 0⟩

/-- Mirror of `dichotomy` in `methods.py` (`delta? = none` models the
Python default `delta=None`, replaced by `tol / 2`). -/
def dichotomy (f : α → α) (bounds : α × α) (tol : α) (delta? : Option α)
    (max_iter : ℕ) : Except OptError (OptimizationResult α) :=
  let a := bounds.1
  let b := bounds.2
  if ¬ a < b then .error .invalidBounds
  else if tol ≤ 0 then .error .invalidTolerance
  else
    let delta := delta?.getD (tol / 2)
    if delta ≤ 0 then .error .invalidDelta
    else
      let out := dichotomy_loop f tol delta max_iter a b
      let x_min := (out.a + out.b) / 2
      let f_min := f x_min
      .ok ⟨x_min, f_min, out.iters,
        out.hist ++ [HistRec.fin out.a out.b x_min f_min], "Дихотомия"⟩

/-- Output of the `while` loop of `golden_section`; `evals` counts the
applications of the objective `f` performed inside the loop. -/
structure GoldenLoopOut (α : Type) where
  a : α
  b : α
  hist : List (HistRec α)
  iters : ℕ
  evals : ℕ
  deriving DecidableEq

/-- The `while (b - a) > tol and iterations < max_iter` loop of
`golden_section`, by recursion on the remaining budget.  State:
bounds `a b`, interior probes `x1 x2` and their cached values `f1 f2`. -/
def golden_loop (f : α → α) (tol resphi : α) :
    ℕ → α → α → α → α → α → α → GoldenLoopOut α
  | 0, a, b, _, _, _, _ => ⟨a, b, [], 0, 0⟩
  | fuel + 1, a, b, x1, x2, f1, f2 =>
    if b - a > tol then
      let r := HistRec.interval a b x1 x2 f1 f2
      if f1 < f2 then
        let b' := x2
        let x2' := x1
        let f2' := f1
        let x1' := a + resphi * (b' - a)
        let f1' := f x1'
        let out := golden_loop f tol resphi fuel a b' x1' x2' f1' f2'
        ⟨out.a, out.b, r :: out.hist, out.iters + 1, out.evals + 1⟩
      else
        let a' := x1
        let x1' := x2
        let f1' := f2
        let x2' := b - resphi * (b - a')
        let f2' := f x2'
        let out := golden_loop f tol resphi fuel a' b x1' x2' f1' f2'
        ⟨out.a, out.b, r :: out.hist, out.iters + 1, out.evals + 1⟩
    else ⟨a, b, [], 0, 0⟩

/-- Mirror of `golden_section` in `methods.py`.  The source fixes
`resphi = 2 - (1 + 5 ** 0.5) / 2`; the embedding receives it as the last
parameter (see the module docstring). -/
def golden_section (f : α → α) (bounds : α × α) (tol : α) (resphi : α)
    (max_iter : ℕ) : Except OptError (OptimizationResult α) :=
  let a := bounds.1
  let b := bounds.2
  if ¬ a < b then .error .invalidBounds
  else if tol ≤ 0 then .error .invalidTolerance
  else
    let x1 := a + resphi * (b - a)
    let x2 := b - resphi * (b - a)
    let f1 := f x1
    let f2 := f x2
    let out := golden_loop f tol resphi max_iter a b x1 x2 f1 f2
    let x_min := (out.a + out.b) / 2
    let f_min := f x_min
    .ok ⟨x_min, f_min, out.iters,
      out.hist ++ [HistRec.fin out.a out.b x_min f_min], "Золотое сечение"⟩

/-- The `for _ in range(max_iter)` loop of `newton_tangent`.  Returns the
final `x` together with the records appended, or the mid-run
`ZeroDivisionError` (`DegenerateCurvature`). -/
def newton_loop (f df d2f : α → α) (tol : α) :
    ℕ → α → Except OptError (α × List (HistRec α))
  | 0, x => .ok (x, [])
  | fuel + 1, x =>
    let g := df x
    let h := d2f x
    let r := HistRec.newtonRec x g h (f x)
    if |g| < tol then .ok (x, [r])
    else if h = 0 then .error .degenerateCurvature
    else
      let x_new := x - g / h
      if |x_new - x| < tol then .ok (x_new, [r])
      else
        match newton_loop f df d2f tol fuel x_new with
        | .error e => .error e
        | .ok (xf, hist) => .ok (xf, r :: hist)

/-- Mirror of `newton_tangent` in `methods.py` (`d2f? = none` models the
Python `d2f=None`). -/
def newton_tangent (f df : α → α) (d2f? : Option (α → α)) (x0 tol : α)
    (max_iter : ℕ) : Except OptError (OptimizationResult α) :=
  match d2f? with
  | none => .error .missingSecondDerivative
  | some d2f =>
    match newton_loop f df d2f tol max_iter x0 with
    | .error e => .error e
    | .ok (x, hist) =>
      .ok ⟨x, f x, hist.length, hist, "Касательных (Ньютона)"⟩

/-- The nested `grad` of `secant_on_gradient`: the analytic `df` when it is
supplied, otherwise the central finite difference with step `h_fd`. -/
def sec_grad (f : α → α) (df? : Option (α → α)) (h_fd : α) (x : α) : α :=
  match df? with
  | some df => df x
  | none => (f (x + h_fd) - f (x - h_fd)) / (2 * h_fd)

/-- The denominator guard `1e-20` of `secant_on_gradient`. -/
def secantGuard : α := 1 / 10 ^ 20

/-- The `for _ in range(max_iter)` loop of `secant_on_gradient`.  State:
previous/current point and gradient.  Returns the final `x_curr` and the
records appended by the loop. -/
def secant_loop (grad f : α → α) (tol : α) :
    ℕ → α → α → α → α → α × List (HistRec α)
  | 0, _, xc, _, _ => (xc, [])
  | fuel + 1, xp, xc, gp, gc =>
    if |gc - gp| < secantGuard then (xc, [])
    else
      let x_next := xc - gc * (xc - xp) / (gc - gp)
      let g_next := grad x_next
      let r := HistRec.secantRec x_next g_next (f x_next)
      if |x_next - xc| < tol ∨ |g_next| < tol then (x_next, [r])
      else
        let out := secant_loop grad f tol fuel xc x_next gc g_next
        (out.1, r :: out.2)

/-- Mirror of `secant_on_gradient` in `methods.py` (never raises, hence no
`Except`). -/
def secant_on_gradient (f : α → α) (df? : Option (α → α)) (x0 x1 tol : α)
    (max_iter : ℕ) (h_fd : α) : OptimizationResult α :=
  let grad := sec_grad f df? h_fd
  let g0 := grad x0
  let g1 := grad x1
  let seeds := [HistRec.secantRec x0 g0 (f x0), HistRec.secantRec x1 g1 (f x1)]
  let out := secant_loop grad f tol max_iter x0 x1 g0 g1
  let history := seeds ++ out.2
  ⟨out.1, f out.1, history.length, history, "Секущих (по производной)"⟩

/-- Mirror of `auto_select_and_run` in `selection.py`.  `resphi` is the
golden-section constant forwarded to `golden_section` (see the module
docstring); the source's defaults `max_iter = 100` (Newton), `200`/`h_fd =
1e-6` (secant), `10_000` (interval methods) and `samples = 50` (forced
passive with falsy `samples`) are written out.  In the forced branch a
Python falsy test `not samples` treats both `None` and `0` as absent. -/
def auto_select_and_run (f : α → α) (bounds : Option (α × α)) (tol : α)
    (samples : Option ℕ) (df : Option (α → α)) (d2f : Option (α → α))
    (x0 : Option α) (x1 : Option α) (prefer : Option String) (resphi : α) :
    Except OptError (OptimizationResult α) :=
  match prefer with
  | some p =>
    let key := p.toLower
    if key = "passive" then
      match bounds with
      | none => .error .insufficientParameters
      | some bs =>
        let s := match samples with
          | none => 50
          | some 0 => 50
          | some n => n
        passive_search f bs s
    else if key = "dichotomy" then
      match bounds with
      | none => .error .insufficientParameters
      | some bs => dichotomy f bs tol none 10000
    else if key = "golden" then
      match bounds with
      | none => .error .insufficientParameters
      | some bs => golden_section f bs tol resphi 10000
    else if key = "newton" then
      match df, d2f, x0 with
      | some d, some d2, some x => newton_tangent f d (some d2) x tol 100
      | _, _, _ => .error .insufficientParameters
    else if key = "secant" then
      match x0, x1 with
      | some a0, some a1 =>
        .ok (secant_on_gradient f df a0 a1 tol 200 (1 / 1000000))
      | _, _ => .error .insufficientParameters
    else .error .unknownPrefer
  | none =>
    match d2f, df, x0 with
    | some d2, some d, some x => newton_tangent f d (some d2) x tol 100
    | _, _, _ =>
      match x0, x1 with
      | some a0, some a1 =>
        .ok (secant_on_gradient f df a0 a1 tol 200 (1 / 1000000))
      | _, _ =>
        match bounds with
        | some bs =>
          match samples with
          | some s => passive_search f bs s
          | none => golden_section f bs tol resphi 10000
        | none => .error .insufficientData

/-! ### Helper predicates used by the theorems -/

/-- Interval records (interior and final) stay inside `[lo, hi]` and are
proper (`a < b`); passive-search points stay inside `[lo, hi]`. -/
def recWithin (lo hi : α) : HistRec α → Prop
  | .point x _ => lo ≤ x ∧ x ≤ hi
  | .interval a b _ _ _ _ => lo ≤ a ∧ b ≤ hi ∧ a < b
  | .fin a b _ _ => lo ≤ a ∧ b ≤ hi ∧ a < b
  | _ => True

/-- Two consecutive interior golden-section records share one probe: the
new record reuses `(x1, f1)` as its `(x2, f2)` (left narrowing) or
`(x2, f2)` as its `(x1, f1)` (right narrowing). -/
def reuseStep : HistRec α → HistRec α → Prop
  | .interval _ _ x1 x2 f1 f2, .interval _ _ x1' x2' f1' f2' =>
      (x2' = x1 ∧ f2' = f1) ∨ (x1' = x2 ∧ f1' = f2)
  | _, _ => False

/-- Width of the interval stored in a record (`0` for non-interval records). -/
def wd : HistRec α → α
  | .interval a b _ _ _ _ => b - a
  | .fin a b _ _ => b - a
  | _ => 0

/-- Default record used with `List.getD`. -/
def recD : HistRec α := .point 0 0

/-! ### Lemmas about the dichotomy loop -/

theorem dichotomy_loop_length (f : α → α) (tol delta : α) :
    ∀ (fuel : ℕ) (a b : α),
      (dichotomy_loop f tol delta fuel a b).hist.length =
        (dichotomy_loop f tol delta fuel a b).iters := by
  intro fuel
  induction fuel with
  | zero => intro a b; simp [dichotomy_loop]
  | succ n ih =>
    intro a b
    simp only [dichotomy_loop]
    split_ifs <;> simp [ih]

theorem dichotomy_loop_budget (f : α → α) (tol delta : α) :
    ∀ (fuel : ℕ) (a b : α), (dichotomy_loop f tol delta fuel a b).iters ≤ fuel := by
  intro fuel
  induction fuel with
  | zero => intro a b; simp [dichotomy_loop]
  | succ n ih =>
    intro a b
    simp only [dichotomy_loop]
    split_ifs <;> simp [Nat.succ_le_succ, ih]

theorem dichotomy_loop_exit (f : α → α) (tol delta : α) :
    ∀ (fuel : ℕ) (a b : α),
      (dichotomy_loop f tol delta fuel a b).iters < fuel →
        (dichotomy_loop f tol delta fuel a b).b -
          (dichotomy_loop f tol delta fuel a b).a ≤ tol := by
  intro fuel
  induction fuel with
  | zero => intro a b h; exact absurd h (by simp)
  | succ n ih =>
    intro a b
    simp only [dichotomy_loop]
    split_ifs with hw hc
    · intro h
      exact ih _ _ (by simpa using h)
    · intro h
      exact ih _ _ (by simpa using h)
    · intro _
      simpa using le_of_not_lt hw

theorem recWithin_mono {lo hi lo' hi' : α} (h1 : lo' ≤ lo) (h2 : hi ≤ hi') :
    ∀ {r : HistRec α}, recWithin lo hi r → recWithin lo' hi' r := by
  intro r
  cases r with
  | point x fx => exact fun h => ⟨le_trans h1 h.1, le_trans h.2 h2⟩
  | interval a b x1 x2 f1 f2 =>
    exact fun h => ⟨le_trans h1 h.1, le_trans h.2.1 h2, h.2.2⟩
  | fin a b x fx => exact fun h => ⟨le_trans h1 h.1, le_trans h.2.1 h2, h.2.2⟩
  | newtonRec x g hcur fx => exact fun _ => trivial
  | secantRec x g fx => exact fun _ => trivial

theorem dichotomy_loop_within (f : α → α) (tol delta : α)
    (hd : 0 < delta) (hd2 : delta ≤ tol / 2) :
    ∀ (fuel : ℕ) (a b : α), a < b →
      (a ≤ (dichotomy_loop f tol delta fuel a b).a ∧
        (dichotomy_loop f tol delta fuel a b).b ≤ b ∧
        (dichotomy_loop f tol delta fuel a b).a <
          (dichotomy_loop f tol delta fuel a b).b) ∧
      ∀ r ∈ (dichotomy_loop f tol delta fuel a b).hist, recWithin a b r := by
  intro fuel
  induction fuel with
  | zero => intro a b hab; simp [dichotomy_loop, hab, le_of_lt hab]
  | succ n ih =>
    intro a b hab
    simp only [dichotomy_loop]
    split_ifs with hw hc
    · have hx2a : a < (a + b) / 2 + delta := by linarith
      have hx2b : (a + b) / 2 + delta ≤ b := by linarith
      obtain ⟨⟨h1, h2, h3⟩, h4⟩ := ih a ((a + b) / 2 + delta) hx2a
      refine ⟨⟨h1, le_trans h2 hx2b, h3⟩, ?_⟩
      intro r hr
      simp only [List.mem_cons] at hr
      rcases hr with rfl | hr
      · exact ⟨le_refl a, le_refl b, hab⟩
      · exact recWithin_mono (le_refl a) hx2b (h4 r hr)
    · have hx1a : a ≤ (a + b) / 2 - delta := by linarith
      have hx1b : (a + b) / 2 - delta < b := by linarith
      obtain ⟨⟨h1, h2, h3⟩, h4⟩ := ih ((a + b) / 2 - delta) b hx1b
      refine ⟨⟨le_trans hx1a h1, h2, h3⟩, ?_⟩
      intro r hr
      simp only [List.mem_cons] at hr
      rcases hr with rfl | hr
      · exact ⟨le_refl a, le_refl b, hab⟩
      · exact recWithin_mono hx1a (le_refl b) (h4 r hr)
    · exact ⟨⟨le_refl a, le_refl b, hab⟩, by simp⟩

/-! ### Lemmas about the golden-section loop -/

theorem golden_loop_length (f : α → α) (tol resphi : α) :
    ∀ (fuel : ℕ) (a b x1 x2 f1 f2 : α),
      (golden_loop f tol resphi fuel a b x1 x2 f1 f2).hist.length =
        (golden_loop f tol resphi fuel a b x1 x2 f1 f2).iters := by
  intro fuel
  induction fuel with
  | zero => intro a b x1 x2 f1 f2; simp [golden_loop]
  | succ n ih =>
    intro a b x1 x2 f1 f2
    simp only [golden_loop]
    split_ifs <;> simp [ih]

theorem golden_loop_budget (f : α → α) (tol resphi : α) :
    ∀ (fuel : ℕ) (a b x1 x2 f1 f2 : α),
      (golden_loop f tol resphi fuel a b x1 x2 f1 f2).iters ≤ fuel := by
  intro fuel
  induction fuel with
  | zero => intro a b x1 x2 f1 f2; simp [golden_loop]
  | succ n ih =>
    intro a b x1 x2 f1 f2
    simp only [golden_loop]
    split_ifs <;> simp [Nat.succ_le_succ, ih]

theorem golden_loop_exit (f : α → α) (tol resphi : α) :
    ∀ (fuel : ℕ) (a b x1 x2 f1 f2 : α),
      (golden_loop f tol resphi fuel a b x1 x2 f1 f2).iters < fuel →
        (golden_loop f tol resphi fuel a b x1 x2 f1 f2).b -
          (golden_loop f tol resphi fuel a b x1 x2 f1 f2).a ≤ tol := by
  intro fuel
  induction fuel with
  | zero => intro a b x1 x2 f1 f2 h; exact absurd h (by simp)
  | succ n ih =>
    intro a b x1 x2 f1 f2
    simp only [golden_loop]
    split_ifs with hw hc
    · intro h; exact ih _ _ _ _ _ _ (by simpa using h)
    · intro h; exact ih _ _ _ _ _ _ (by simpa using h)
    · intro _; simpa using le_of_not_lt hw

theorem golden_loop_evals (f : α → α) (tol resphi : α) :
    ∀ (fuel : ℕ) (a b x1 x2 f1 f2 : α),
      (golden_loop f tol resphi fuel a b x1 x2 f1 f2).evals =
        (golden_loop f tol resphi fuel a b x1 x2 f1 f2).iters := by
  intro fuel
  induction fuel with
  | zero => intro a b x1 x2 f1 f2; simp [golden_loop]
  | succ n ih =>
    intro a b x1 x2 f1 f2
    simp only [golden_loop]
    split_ifs <;> simp [ih]

theorem golden_loop_head (f : α → α) (tol resphi : α) (fuel : ℕ)
    (a b x1 x2 f1 f2 : α) :
    (golden_loop f tol resphi fuel a b x1 x2 f1 f2).hist = [] ∨
      (golden_loop f tol resphi fuel a b x1 x2 f1 f2).hist.getD 0 recD =
        HistRec.interval a b x1 x2 f1 f2 := by
  cases fuel with
  | zero => left; simp [golden_loop]
  | succ n =>
    simp only [golden_loop]
    split_ifs
    · right; simp
    · right; simp
    · left; simp

theorem golden_loop_reuse (f : α → α) (tol resphi : α) :
    ∀ (fuel : ℕ) (a b x1 x2 f1 f2 : α) (k : ℕ),
      k + 1 < (golden_loop f tol resphi fuel a b x1 x2 f1 f2).hist.length →
      reuseStep ((golden_loop f tol resphi fuel a b x1 x2 f1 f2).hist.getD k recD)
        ((golden_loop f tol resphi fuel a b x1 x2 f1 f2).hist.getD (k + 1) recD) := by
  intro fuel
  induction fuel with
  | zero => intro a b x1 x2 f1 f2 k hk; simp [golden_loop] at hk
  | succ n ih =>
    intro a b x1 x2 f1 f2 k hk
    simp only [golden_loop] at hk ⊢
    split_ifs at hk ⊢ with hw hc
    · simp only [List.length_cons, Nat.add_lt_add_iff_right] at hk
      match k with
      | 0 =>
        rcases golden_loop_head f tol resphi n a x2 (a + resphi * (x2 - a)) x1
            (f (a + resphi * (x2 - a))) f1 with hnil | hhd
        · rw [hnil] at hk; simp at hk
        · simp only [List.getD_cons_zero, List.getD_cons_succ, hhd]
          exact Or.inl ⟨rfl, rfl⟩
      | k + 1 =>
        simp only [List.getD_cons_succ]
        exact ih _ _ _ _ _ _ k (by simpa using hk)
    · simp only [List.length_cons, Nat.add_lt_add_iff_right] at hk
      match k with
      | 0 =>
        rcases golden_loop_head f tol resphi n x1 b x2 (b - resphi * (b - x1))
            f2 (f (b - resphi * (b - x1))) with hnil | hhd
        · rw [hnil] at hk; simp at hk
        · simp only [List.getD_cons_zero, List.getD_cons_succ, hhd]
          exact Or.inr ⟨rfl, rfl⟩
      | k + 1 =>
        simp only [List.getD_cons_succ]
        exact ih _ _ _ _ _ _ k (by simpa using hk)
    · simp at hk

theorem golden_loop_within (f : α → α) (tol resphi : α)
    (hgid : resphi * resphi - 3 * resphi + 1 = 0)
    (h0 : 0 < resphi) (h1 : resphi < 1) :
    ∀ (fuel : ℕ) (a b x1 x2 f1 f2 : α), a < b →
      x1 = a + resphi * (b - a) → x2 = b - resphi * (b - a) →
      (a ≤ (golden_loop f tol resphi fuel a b x1 x2 f1 f2).a ∧
        (golden_loop f tol resphi fuel a b x1 x2 f1 f2).b ≤ b ∧
        (golden_loop f tol resphi fuel a b x1 x2 f1 f2).a <
          (golden_loop f tol resphi fuel a b x1 x2 f1 f2).b) ∧
      ∀ r ∈ (golden_loop f tol resphi fuel a b x1 x2 f1 f2).hist,
        recWithin a b r := by
  intro fuel
  induction fuel with
  | zero =>
    intro a b x1 x2 f1 f2 hab hp1 hp2
    simp [golden_loop, hab, le_of_lt hab]
  | succ n ih =>
    intro a b x1 x2 f1 f2 hab hp1 hp2
    have hw0 : 0 < b - a := by linarith
    have hrw : 0 < resphi * (b - a) := mul_pos h0 hw0
    have hrw1 : resphi * (b - a) < b - a := by
      nlinarith
    simp only [golden_loop]
    split_ifs with hw hc
    · -- f1 < f2 : narrow to (a, x2)
      have hb' : a < x2 := by rw [hp2]; linarith
      have hb'b : x2 ≤ b := by rw [hp2]; linarith
      have hplace2 : x1 = x2 - resphi * (x2 - a) := by
        rw [hp1, hp2]; linear_combination (a - b) * hgid
      obtain ⟨⟨g1, g2, g3⟩, g4⟩ :=
        ih a x2 (a + resphi * (x2 - a)) x1 (f (a + resphi * (x2 - a))) f1
          hb' rfl hplace2
      refine ⟨⟨g1, le_trans g2 hb'b, g3⟩, ?_⟩
      intro r hr
      simp only [List.mem_cons] at hr
      rcases hr with rfl | hr
      · exact ⟨le_refl a, le_refl b, hab⟩
      · exact recWithin_mono (le_refl a) hb'b (g4 r hr)
    · -- narrow to (x1, b)
      have ha' : x1 < b := by rw [hp1]; linarith
      have ha'a : a ≤ x1 := by rw [hp1]; linarith
      have hplace1 : x2 = x1 + resphi * (b - x1) := by
        rw [hp1, hp2]; linear_combination (b - a) * hgid
      obtain ⟨⟨g1, g2, g3⟩, g4⟩ :=
        ih x1 b x2 (b - resphi * (b - x1)) f2 (f (b - resphi * (b - x1)))
          ha' hplace1 rfl
      refine ⟨⟨le_trans ha'a g1, g2, g3⟩, ?_⟩
      intro r hr
      simp only [List.mem_cons] at hr
      rcases hr with rfl | hr
      · exact ⟨le_refl a, le_refl b, hab⟩
      · exact recWithin_mono ha'a (le_refl b) (g4 r hr)
    · exact ⟨⟨le_refl a, le_refl b, hab⟩, by simp⟩

theorem golden_loop_widths (f : α → α) (tol resphi : α)
    (hgid : resphi * resphi - 3 * resphi + 1 = 0) :
    ∀ (fuel : ℕ) (a b x1 x2 f1 f2 : α),
      x1 = a + resphi * (b - a) → x2 = b - resphi * (b - a) →
      ∀ k < (golden_loop f tol resphi fuel a b x1 x2 f1 f2).hist.length,
        wd ((golden_loop f tol resphi fuel a b x1 x2 f1 f2).hist.getD k recD) =
          (1 - resphi) ^ k * (b - a) := by
  intro fuel
  induction fuel with
  | zero => intro a b x1 x2 f1 f2 hp1 hp2 k hk; simp [golden_loop] at hk
  | succ n ih =>
    intro a b x1 x2 f1 f2 hp1 hp2 k hk
    simp only [golden_loop] at hk ⊢
    split_ifs at hk ⊢ with hw hc
    · have hplace2 : x1 = x2 - resphi * (x2 - a) := by
        rw [hp1, hp2]; linear_combination (a - b) * hgid
      have hwidth : x2 - a = (1 - resphi) * (b - a) := by rw [hp2]; ring
      match k with
      | 0 => simp [wd]
      | k + 1 =>
        simp only [List.getD_cons_succ]
        have := ih a x2 (a + resphi * (x2 - a)) x1 (f (a + resphi * (x2 - a)))
          f1 rfl hplace2 k (by simpa using hk)
        rw [this, hwidth]
        ring
    · have hplace1 : x2 = x1 + resphi * (b - x1) := by
        rw [hp1, hp2]; linear_combination (b - a) * hgid
      have hwidth : b - x1 = (1 - resphi) * (b - a) := by rw [hp1]; ring
      match k with
      | 0 => simp [wd]
      | k + 1 =>
        simp only [List.getD_cons_succ]
        have := ih x1 b x2 (b - resphi * (b - x1)) f2 (f (b - resphi * (b - x1)))
          hplace1 rfl k (by simpa using hk)
        rw [this, hwidth]
        ring
    · simp at hk

theorem golden_loop_final_width (f : α → α) (tol resphi : α)
    (hgid : resphi * resphi - 3 * resphi + 1 = 0) :
    ∀ (fuel : ℕ) (a b x1 x2 f1 f2 : α),
      x1 = a + resphi * (b - a) → x2 = b - resphi * (b - a) →
      (golden_loop f tol resphi fuel a b x1 x2 f1 f2).b -
        (golden_loop f tol resphi fuel a b x1 x2 f1 f2).a =
        (1 - resphi) ^ (golden_loop f tol resphi fuel a b x1 x2 f1 f2).iters *
          (b - a) := by
  intro fuel
  induction fuel with
  | zero => intro a b x1 x2 f1 f2 hp1 hp2; simp [golden_loop]
  | succ n ih =>
    intro a b x1 x2 f1 f2 hp1 hp2
    simp only [golden_loop]
    split_ifs with hw hc
    · have hplace2 : x1 = x2 - resphi * (x2 - a) := by
        rw [hp1, hp2]; linear_combination (a - b) * hgid
      have hwidth : x2 - a = (1 - resphi) * (b - a) := by rw [hp2]; ring
      have := ih a x2 (a + resphi * (x2 - a)) x1 (f (a + resphi * (x2 - a)))
        f1 rfl hplace2
      simp only []
      rw [this, hwidth, pow_succ]
      ring
    · have hplace1 : x2 = x1 + resphi * (b - x1) := by
        rw [hp1, hp2]; linear_combination (b - a) * hgid
      have hwidth : b - x1 = (1 - resphi) * (b - a) := by rw [hp1]; ring
      have := ih x1 b x2 (b - resphi * (b - x1)) f2 (f (b - resphi * (b - x1)))
        hplace1 rfl
      simp only []
      rw [this, hwidth, pow_succ]
      ring
    · simp

/-! ### Lemmas about the Newton loop -/

theorem newton_loop_error_classify (f df d2f : α → α) (tol : α) :
    ∀ (fuel : ℕ) (x : α) (e : OptError),
      newton_loop f df d2f tol fuel x = .error e → e = .degenerateCurvature := by
  intro fuel
  induction fuel with
  | zero => intro x e h; simp [newton_loop] at h
  | succ n ih =>
    intro x e h
    simp only [newton_loop] at h
    split_ifs at h with h1 h2 h3
    all_goals first
      | exact Except.noConfusion h
      | exact (Except.error.inj h).symm
      | (cases hrec : newton_loop f df d2f tol n (x - df x / d2f x) with
        | error e' =>
          rw [hrec] at h
          simp only [Except.error.injEq] at h
          exact h ▸ ih _ _ hrec
        | ok p => rw [hrec] at h; exact Except.noConfusion h)

theorem newton_loop_ok_length (f df d2f : α → α) (tol : α) :
    ∀ (fuel : ℕ) (x xf : α) (hist : List (HistRec α)),
      newton_loop f df d2f tol fuel x = .ok (xf, hist) → hist.length ≤ fuel := by
  intro fuel
  induction fuel with
  | zero => intro x xf hist h; simp [newton_loop] at h; simp [h.2]
  | succ n ih =>
    intro x xf hist h
    simp only [newton_loop] at h
    split_ifs at h with h1 h2 h3
    all_goals first
      | exact Except.noConfusion h
      | (injection h with h'
         injection h' with ha hb
         rw [← hb]
         simp only [List.length_singleton]
         omega)
      | (cases hrec : newton_loop f df d2f tol n (x - df x / d2f x) with
        | error e' => rw [hrec] at h; exact Except.noConfusion h
        | ok p =>
          rw [hrec] at h
          injection h with h'
          injection h' with ha hb
          rw [← hb]
          have := ih _ p.1 p.2 (by rw [hrec])
          simp only [List.length_cons]
          omega)

theorem newton_loop_total (f df d2f : α → α) (tol : α)
    (hnz : ∀ y, d2f y ≠ 0) :
    ∀ (fuel : ℕ) (x : α), ∃ p, newton_loop f df d2f tol fuel x = .ok p := by
  intro fuel
  induction fuel with
  | zero => intro x; exact ⟨_, rfl⟩
  | succ n ih =>
    intro x
    simp only [newton_loop]
    split_ifs with h1 h2 h3
    · exact ⟨_, rfl⟩
    · exact absurd h2 (hnz x)
    · exact ⟨_, rfl⟩
    · obtain ⟨p, hp⟩ := ih (x - df x / d2f x)
      rw [hp]
      exact ⟨_, rfl⟩

theorem newton_loop_degenerate_head (f df d2f : α → α) (tol : α)
    (fuel : ℕ) (x : α) (hg : ¬ |df x| < tol) (hz : d2f x = 0) :
    newton_loop f df d2f tol (fuel + 1) x = .error .degenerateCurvature := by
  simp [newton_loop, hg, hz]

/-! ### Lemmas about the secant loop -/

theorem secant_loop_guard (grad f : α → α) (tol : α) (fuel : ℕ)
    (xp xc gp gc : α) (h : |gc - gp| < secantGuard) :
    secant_loop grad f tol fuel xp xc gp gc = (xc, []) := by
  cases fuel with
  | zero => rfl
  | succ n => simp [secant_loop, h]

/-! ### Lemmas about argmin and linspace -/

theorem argminFrom_spec (l : List α) :
    ∀ (bv : α) (bi i : ℕ),
      (argminFrom bv bi i l = bi ∧ ∀ y ∈ l, bv ≤ y) ∨
      (∃ k, k < l.length ∧ argminFrom bv bi i l = i + k ∧
        l.getD k 0 < bv ∧ (∀ m < k, l.getD k 0 < l.getD m 0) ∧
        (∀ m < l.length, l.getD k 0 ≤ l.getD m 0)) := by
  induction l with
  | nil => intro bv bi i; left; exact ⟨rfl, by simp⟩
  | cons y ys ih =>
    intro bv bi i
    by_cases hy : y < bv
    · right
      rcases ih y i (i + 1) with ⟨heq, hmin⟩ | ⟨k, hk, heq, hlt, hfirst, hmin⟩
      · refine ⟨0, by simp, ?_, by simpa using hy, by omega, ?_⟩
        · simpa [argminFrom, hy] using heq
        · intro m hm
          match m with
          | 0 => simp
          | m + 1 =>
            simp only [List.getD_cons_zero, List.getD_cons_succ]
            have hm' : m < ys.length := by simpa using hm
            refine hmin _ ?_
            rw [List.getD_eq_getElem ys 0 hm']
            exact List.getElem_mem hm'
      · refine ⟨k + 1, by simpa using hk, ?_, ?_, ?_, ?_⟩
        · simp only [argminFrom, if_pos hy, heq]
          omega
        · simp only [List.getD_cons_succ]
          exact lt_trans hlt hy
        · intro m hm
          match m with
          | 0 => simpa using hlt
          | m + 1 =>
            simp only [List.getD_cons_succ]
            exact hfirst m (by omega)
        · intro m hm
          match m with
          | 0 => simpa using le_of_lt hlt
          | m + 1 =>
            simp only [List.getD_cons_succ]
            exact hmin m (by simpa using hm)
    · rcases ih bv bi (i + 1) with ⟨heq, hmin⟩ | ⟨k, hk, heq, hlt, hfirst, hmin⟩
      · left
        refine ⟨by simpa [argminFrom, hy] using heq, ?_⟩
        intro z hz
        simp only [List.mem_cons] at hz
        rcases hz with rfl | hz
        · exact le_of_not_lt hy
        · exact hmin z hz
      · right
        refine ⟨k + 1, by simpa using hk, ?_, ?_, ?_, ?_⟩
        · simp only [argminFrom, if_neg hy, heq]
          omega
        · simpa using hlt
        · intro m hm
          match m with
          | 0 =>
            simp only [List.getD_cons_succ, List.getD_cons_zero]
            exact lt_of_lt_of_le hlt (le_of_not_lt hy)
          | m + 1 =>
            simp only [List.getD_cons_succ]
            exact hfirst m (by omega)
        · intro m hm
          match m with
          | 0 =>
            simp only [List.getD_cons_succ, List.getD_cons_zero]
            exact le_of_lt (lt_of_lt_of_le hlt (le_of_not_lt hy))
          | m + 1 =>
            simp only [List.getD_cons_succ]
            exact hmin m (by simpa using hm)

theorem argminIdx_spec (x : α) (xs : List α) :
    argminIdx (x :: xs) < (x :: xs).length ∧
      (∀ m < (x :: xs).length,
        (x :: xs).getD (argminIdx (x :: xs)) 0 ≤ (x :: xs).getD m 0) ∧
      ∀ m < argminIdx (x :: xs),
        (x :: xs).getD (argminIdx (x :: xs)) 0 < (x :: xs).getD m 0 := by
  rcases argminFrom_spec xs x 0 1 with ⟨heq, hmin⟩ | ⟨k, hk, heq, hlt, hfirst, hmin⟩
  · have hj : argminIdx (x :: xs) = 0 := heq
    rw [hj]
    refine ⟨by simp, ?_, by omega⟩
    intro m hm
    match m with
    | 0 => simp
    | m + 1 =>
      simp only [List.getD_cons_zero, List.getD_cons_succ]
      have hm' : m < xs.length := by simpa using hm
      refine hmin _ ?_
      rw [List.getD_eq_getElem xs 0 hm']
      exact List.getElem_mem hm'
  · have hj : argminIdx (x :: xs) = 1 + k := heq
    rw [hj]
    have hgd : (x :: xs).getD (1 + k) 0 = xs.getD k 0 := by
      have : 1 + k = k + 1 := by omega
      rw [this]
      simp
    rw [hgd]
    refine ⟨by simp; omega, ?_, ?_⟩
    · intro m hm
      match m with
      | 0 => simpa using le_of_lt hlt
      | m + 1 =>
        simp only [List.getD_cons_succ]
        exact hmin m (by simpa using hm)
    · intro m hm
      match m with
      | 0 => simpa using hlt
      | m + 1 =>
        simp only [List.getD_cons_succ]
        exact hfirst m (by omega)

theorem linspace_length (a b : α) (n : ℕ) : (linspace a b n).length = n := by
  rw [linspace, List.length_map, List.length_range]

theorem linspace_getD (a b : α) (n : ℕ) (i : ℕ) (hi : i < n) :
    (linspace a b n).getD i 0 = a + (b - a) * i / ((n - 1 : ℕ) : α) := by
  have hlen : i < (linspace a b n).length := by rw [linspace_length]; exact hi
  rw [List.getD_eq_getElem _ 0 hlen]
  simp only [linspace, List.getElem_map, List.getElem_range]

theorem linspace_getD_mem_Icc (a b : α) (n : ℕ) (hab : a < b) (hn : 2 ≤ n)
    (i : ℕ) (hi : i < n) :
    a ≤ (linspace a b n).getD i 0 ∧ (linspace a b n).getD i 0 ≤ b := by
  rw [linspace_getD a b n i hi]
  have hd0 : (0 : α) < ((n - 1 : ℕ) : α) := by
    have : 1 ≤ n - 1 := by omega
    exact_mod_cast Nat.lt_of_lt_of_le Nat.zero_lt_one this
  have hba : (0 : α) ≤ b - a := by linarith
  have hnum0 : (0 : α) ≤ (b - a) * i := mul_nonneg hba (Nat.cast_nonneg i)
  have hile : (i : α) ≤ ((n - 1 : ℕ) : α) := by
    exact_mod_cast Nat.le_sub_one_of_lt hi
  constructor
  · have : (0 : α) ≤ (b - a) * i / ((n - 1 : ℕ) : α) :=
      div_nonneg hnum0 (le_of_lt hd0)
    linarith
  · have hmul : (b - a) * i ≤ (b - a) * ((n - 1 : ℕ) : α) :=
      mul_le_mul_of_nonneg_left hile hba
    have : (b - a) * i / ((n - 1 : ℕ) : α) ≤ b - a := by
      rw [div_le_iff₀ hd0]
      exact hmul
    linarith

theorem linspace_first (a b : α) (n : ℕ) (hn : 1 ≤ n) :
    (linspace a b n).getD 0 0 = a := by
  rw [linspace_getD a b n 0 (by omega)]
  simp

theorem linspace_last (a b : α) (n : ℕ) (hn : 2 ≤ n) :
    (linspace a b n).getD (n - 1) 0 = b := by
  rw [linspace_getD a b n (n - 1) (by omega)]
  have hd0 : ((n - 1 : ℕ) : α) ≠ 0 := by
    have h1 : 0 < n - 1 := by omega
    have : (0 : α) < ((n - 1 : ℕ) : α) := by exact_mod_cast h1
    linarith
  rw [mul_div_assoc, div_self hd0, mul_one]
  ring

theorem linspace_spacing (a b : α) (n : ℕ) (i : ℕ) (hi : i + 1 < n) :
    (linspace a b n).getD (i + 1) 0 - (linspace a b n).getD i 0 =
      (b - a) / ((n - 1 : ℕ) : α) := by
  rw [linspace_getD a b n (i + 1) hi, linspace_getD a b n i (by omega)]
  push_cast
  ring

theorem argminIdx_spec_ne (l : List α) (hne : l ≠ []) :
    argminIdx l < l.length ∧
      (∀ m < l.length, l.getD (argminIdx l) 0 ≤ l.getD m 0) ∧
      ∀ m < argminIdx l, l.getD (argminIdx l) 0 < l.getD m 0 := by
  cases l with
  | nil => exact absurd rfl hne
  | cons x xs => exact argminIdx_spec x xs

theorem getD_map_of_lt (f : α → α) (xs : List α) (i : ℕ) (hi : i < xs.length) :
    (xs.map f).getD i 0 = f (xs.getD i 0) := by
  rw [List.getD_eq_getElem _ 0 (by simpa using hi), List.getElem_map,
    List.getD_eq_getElem _ 0 hi]

theorem getD_map_point_of_lt (f : α → α) (xs : List α) (i : ℕ)
    (hi : i < xs.length) :
    (xs.map (fun x => HistRec.point x (f x))).getD i recD =
      HistRec.point (xs.getD i 0) (f (xs.getD i 0)) := by
  rw [List.getD_eq_getElem _ recD (by simpa using hi), List.getElem_map,
    List.getD_eq_getElem _ 0 hi]

theorem dichotomy_loop_stop (f : α → α) (tol delta : α) (fuel : ℕ) (a b : α)
    (h : ¬ b - a > tol) : dichotomy_loop f tol delta fuel a b = ⟨a, b, [], 0⟩ := by
  cases fuel with
  | zero => rfl
  | succ n => simp [dichotomy_loop, h]

theorem golden_loop_stop (f : α → α) (tol resphi : α) (fuel : ℕ)
    (a b x1 x2 f1 f2 : α) (h : ¬ b - a > tol) :
    golden_loop f tol resphi fuel a b x1 x2 f1 f2 = ⟨a, b, [], 0, 0⟩ := by
  cases fuel with
  | zero => rfl
  | succ n => simp [golden_loop, h]

/-! ### Method strings of successful results -/

theorem passive_search_ok_method (f : α → α) (bs : α × α) (s : ℕ)
    (r : OptimizationResult α) (h : passive_search f bs s = .ok r) :
    r.method = "Пассивный поиск" := by
  simp only [passive_search] at h
  split_ifs at h
  all_goals first
    | exact Except.noConfusion h
    | (injection h with h'; rw [← h'])

theorem dichotomy_ok_method (f : α → α) (bs : α × α) (tol : α)
    (delta? : Option α) (mi : ℕ) (r : OptimizationResult α)
    (h : dichotomy f bs tol delta? mi = .ok r) : r.method = "Дихотомия" := by
  simp only [dichotomy] at h
  split_ifs at h
  all_goals first
    | exact Except.noConfusion h
    | (injection h with h'; rw [← h'])

theorem golden_section_ok_method (f : α → α) (bs : α × α) (tol resphi : α)
    (mi : ℕ) (r : OptimizationResult α)
    (h : golden_section f bs tol resphi mi = .ok r) :
    r.method = "Золотое сечение" := by
  simp only [golden_section] at h
  split_ifs at h
  all_goals first
    | exact Except.noConfusion h
    | (injection h with h'; rw [← h'])

theorem newton_tangent_ok_method (f df : α → α) (d2f? : Option (α → α))
    (x0 tol : α) (mi : ℕ) (r : OptimizationResult α)
    (h : newton_tangent f df d2f? x0 tol mi = .ok r) :
    r.method = "Касательных (Ньютона)" := by
  cases d2f? with
  | none => exact Except.noConfusion h
  | some d2f =>
    simp only [newton_tangent] at h
    cases hrec : newton_loop f df d2f tol mi x0 with
    | error e => rw [hrec] at h; exact Except.noConfusion h
    | ok p =>
      rw [hrec] at h
      injection h with h'
      rw [← h']

/-- A `golden_section` run whose loop takes the `f1 < f2` branch twice and
then stops by the width test: the exact result, by unfolding two loop
layers.  Used to instantiate claims on a run with two genuine narrowing
iterations. -/
theorem golden_section_two_steps (f : α → α) (a b tol resphi : α) (mi : ℕ)
    (hab : a < b) (htol : ¬ tol ≤ 0) (hw1 : b - a > tol)
    (hbr1 : f (a + resphi * (b - a)) < f (b - resphi * (b - a)))
    (hw2 : (b - resphi * (b - a)) - a > tol)
    (hbr2 : f (a + resphi * ((b - resphi * (b - a)) - a)) <
      f (a + resphi * (b - a)))
    (hstop : ¬ (a + resphi * (b - a)) - a > tol) :
    golden_section f (a, b) tol resphi (mi + 2) =
      .ok ⟨(a + (a + resphi * (b - a))) / 2,
        f ((a + (a + resphi * (b - a))) / 2), 2,
        [HistRec.interval a b (a + resphi * (b - a)) (b - resphi * (b - a))
           (f (a + resphi * (b - a))) (f (b - resphi * (b - a))),
         HistRec.interval a (b - resphi * (b - a))
           (a + resphi * ((b - resphi * (b - a)) - a)) (a + resphi * (b - a))
           (f (a + resphi * ((b - resphi * (b - a)) - a)))
           (f (a + resphi * (b - a))),
         HistRec.fin a (a + resphi * (b - a))
           ((a + (a + resphi * (b - a))) / 2)
           (f ((a + (a + resphi * (b - a))) / 2))],
        "Золотое сечение"⟩ := by
  have hunfold2 : golden_loop f tol resphi (mi + 2) a b (a + resphi * (b - a))
      (b - resphi * (b - a)) (f (a + resphi * (b - a)))
      (f (b - resphi * (b - a))) =
      ⟨a, a + resphi * (b - a),
        [HistRec.interval a b (a + resphi * (b - a)) (b - resphi * (b - a))
           (f (a + resphi * (b - a))) (f (b - resphi * (b - a))),
         HistRec.interval a (b - resphi * (b - a))
           (a + resphi * ((b - resphi * (b - a)) - a)) (a + resphi * (b - a))
           (f (a + resphi * ((b - resphi * (b - a)) - a)))
           (f (a + resphi * (b - a)))],
        2, 2⟩ := by
    simp only [golden_loop]
    rw [if_pos hw1, if_pos hbr1, if_pos hw2, if_pos hbr2,
      golden_loop_stop f tol resphi mi a (a + resphi * (b - a)) _ _ _ _ hstop]
  simp only [golden_section]
  rw [if_neg (not_not_intro hab), if_neg htol, hunfold2]
  rfl

/-! ### Claims -/

/-- C7: `passive_search` fails exactly when `a ≥ b` (with `InvalidBounds`) or
`samples < 2` (with `InvalidSampleCount`), `dichotomy` fails exactly when
`a ≥ b` (`InvalidBounds`), `tol ≤ 0` (`InvalidTolerance`), or the possibly
defaulted `delta ≤ 0` (`InvalidDelta`); otherwise both succeed.  On every
failure the result is computed before `f` is ever applied (the error result
does not depend on `f`), and no result or partial history is produced
(`Except.error` carries nothing). -/
theorem claim_C7 (f : α → α) (a b tol : α) (delta? : Option α) (N mi : ℕ) :
    (¬ a < b → passive_search f (a, b) N = .error .invalidBounds) ∧
    (a < b → N < 2 → passive_search f (a, b) N = .error .invalidSampleCount) ∧
    (a < b → 2 ≤ N → ∃ r, passive_search f (a, b) N = .ok r) ∧
    (¬ a < b → dichotomy f (a, b) tol delta? mi = .error .invalidBounds) ∧
    (a < b → tol ≤ 0 → dichotomy f (a, b) tol delta? mi = .error .invalidTolerance) ∧
    (a < b → 0 < tol → delta?.getD (tol / 2) ≤ 0 →
      dichotomy f (a, b) tol delta? mi = .error .invalidDelta) ∧
    (a < b → 0 < tol → 0 < delta?.getD (tol / 2) →
      ∃ r, dichotomy f (a, b) tol delta? mi = .ok r) ∧
    (∀ g : α → α, ¬ a < b ∨ N < 2 →
      passive_search f (a, b) N = passive_search g (a, b) N) ∧
    (∀ g : α → α, ¬ a < b ∨ tol ≤ 0 ∨ delta?.getD (tol / 2) ≤ 0 →
      dichotomy f (a, b) tol delta? mi = dichotomy g (a, b) tol delta? mi) := by
  refine ⟨?_, ?_, ?_, ?_, ?_, ?_, ?_, ?_, ?_⟩
  · intro h
    simp only [passive_search]
    rw [if_pos h]
  · intro hab hN
    simp only [passive_search]
    rw [if_neg (not_not_intro hab), if_pos hN]
  · intro hab hN
    simp only [passive_search]
    rw [if_neg (not_not_intro hab), if_neg (Nat.not_lt.mpr hN)]
    exact ⟨_, rfl⟩
  · intro h
    simp only [dichotomy]
    rw [if_pos h]
  · intro hab htol
    simp only [dichotomy]
    rw [if_neg (not_not_intro hab), if_pos htol]
  · intro hab htol hd
    simp only [dichotomy]
    rw [if_neg (not_not_intro hab), if_neg (not_le.mpr htol), if_pos hd]
  · intro hab htol hd
    simp only [dichotomy]
    rw [if_neg (not_not_intro hab), if_neg (not_le.mpr htol),
      if_neg (not_le.mpr hd)]
    exact ⟨_, rfl⟩
  · intro g hg
    rcases hg with h | h
    · simp only [passive_search]
      rw [if_pos h, if_pos h]
    · by_cases hab : a < b
      · simp only [passive_search]
        rw [if_neg (not_not_intro hab), if_neg (not_not_intro hab),
          if_pos h, if_pos h]
      · simp only [passive_search]
        rw [if_pos hab, if_pos hab]
  · intro g hg
    by_cases hab : a < b
    · rcases hg with h | h | h
      · exact absurd hab h
      · simp only [dichotomy]
        rw [if_neg (not_not_intro hab), if_neg (not_not_intro hab),
          if_pos h, if_pos h]
      · by_cases htol : tol ≤ 0
        · simp only [dichotomy]
          rw [if_neg (not_not_intro hab), if_neg (not_not_intro hab),
            if_pos htol, if_pos htol]
        · simp only [dichotomy]
          rw [if_neg (not_not_intro hab), if_neg (not_not_intro hab),
            if_neg htol, if_neg htol, if_pos h, if_pos h]
    · simp only [dichotomy]
      rw [if_pos hab, if_pos hab]

/-- C7 witness: concrete invocations of `claim_C7` over `ℚ`: swapped bounds
give `InvalidBounds`; one sample gives `InvalidSampleCount`; `tol = 0` gives
`InvalidTolerance`; and a valid dichotomy call succeeds. -/
theorem claim_C7_witness :
    passive_search (fun x : ℚ => x) (1, 0) 5 = .error .invalidBounds ∧
    passive_search (fun x : ℚ => x) (0, 1) 1 = .error .invalidSampleCount ∧
    dichotomy (fun x : ℚ => x) (0, 1) 0 none 3 = .error .invalidTolerance ∧
    ∃ r, dichotomy (fun x : ℚ => x) (0, 1) 1 none 3 = .ok r := by
  refine ⟨?_, ?_, ?_, ?_⟩
  · exact (claim_C7 (fun x : ℚ => x) 1 0 1 none 5 3).1 (by norm_num)
  · exact (claim_C7 (fun x : ℚ => x) 0 1 1 none 1 3).2.1 (by norm_num) (by norm_num)
  · exact (claim_C7 (fun x : ℚ => x) 0 1 0 none 5 3).2.2.2.2.1 (by norm_num)
      (by norm_num)
  · exact (claim_C7 (fun x : ℚ => x) 0 1 1 none 5 3).2.2.2.2.2.2.1 (by norm_num)
      (by norm_num) (by norm_num)

/-- C10: for every successful `dichotomy` / `golden_section` run exactly one
final record is appended after the loop (`len(history) = iterations + 1`);
when the initial interval already satisfies `b - a ≤ tol` the loop body never
runs and the result is the single final record with `iterations = 0` and
`x_min` the midpoint of the original interval. -/
theorem claim_C10 (f : α → α) (a b tol resphi : α) (delta? : Option α)
    (mi : ℕ) :
    (∀ r, dichotomy f (a, b) tol delta? mi = .ok r →
      r.history.length = r.iterations + 1) ∧
    (∀ r, golden_section f (a, b) tol resphi mi = .ok r →
      r.history.length = r.iterations + 1) ∧
    (a < b → 0 < tol → 0 < delta?.getD (tol / 2) → b - a ≤ tol →
      dichotomy f (a, b) tol delta? mi =
        .ok ⟨(a + b) / 2, f ((a + b) / 2), 0,
          [HistRec.fin a b ((a + b) / 2) (f ((a + b) / 2))], "Дихотомия"⟩) ∧
    (a < b → 0 < tol → b - a ≤ tol →
      golden_section f (a, b) tol resphi mi =
        .ok ⟨(a + b) / 2, f ((a + b) / 2), 0,
          [HistRec.fin a b ((a + b) / 2) (f ((a + b) / 2))], "Золотое сечение"⟩) := by
  refine ⟨?_, ?_, ?_, ?_⟩
  · intro r h
    simp only [dichotomy] at h
    split_ifs at h
    all_goals first
      | exact Except.noConfusion h
      | (injection h with h'
         rw [← h']
         simp [dichotomy_loop_length])
  · intro r h
    simp only [golden_section] at h
    split_ifs at h
    all_goals first
      | exact Except.noConfusion h
      | (injection h with h'
         rw [← h']
         simp [golden_loop_length])
  · intro hab htol hd hle
    simp only [dichotomy]
    rw [if_neg (not_not_intro hab), if_neg (not_le.mpr htol),
      if_neg (not_le.mpr hd), dichotomy_loop_stop f tol _ mi a b (not_lt.mpr hle)]
    rfl
  · intro hab htol hle
    simp only [golden_section]
    rw [if_neg (not_not_intro hab), if_neg (not_le.mpr htol),
      golden_loop_stop f tol resphi mi a b _ _ _ _ (not_lt.mpr hle)]
    rfl

/-- C10 witness: over `ℚ`, with `[a, b] = [0, 1]` and `tol = 2` the interval
is already narrow enough: both methods return zero iterations and the single
final midpoint record, and `len(history) = iterations + 1` on a genuine
multi-step run as well. -/
theorem claim_C10_witness :
    dichotomy (fun x : ℚ => x) (0, 1) 2 none 7 =
      .ok ⟨1/2, 1/2, 0, [HistRec.fin 0 1 (1/2) (1/2)], "Дихотомия"⟩ ∧
    golden_section (fun x : ℚ => x) (0, 1) 2 (38/100) 7 =
      .ok ⟨1/2, 1/2, 0, [HistRec.fin 0 1 (1/2) (1/2)], "Золотое сечение"⟩ ∧
    ∀ r, dichotomy (fun x : ℚ => x) (0, 1) (1/2) (some 10) 1 = .ok r →
      r.history.length = r.iterations + 1 := by
  refine ⟨?_, ?_, ?_⟩
  · have h := (claim_C10 (fun x : ℚ => x) 0 1 2 (38/100) none 7).2.2.1
      (by norm_num) (by norm_num) (by norm_num) (by norm_num)
    rw [h]
    norm_num
  · have h := (claim_C10 (fun x : ℚ => x) 0 1 2 (38/100) none 7).2.2.2
      (by norm_num) (by norm_num) (by norm_num)
    rw [h]
    norm_num
  · exact fun r h => (claim_C10 (fun x : ℚ => x) 0 1 (1/2) (38/100) (some 10) 1).1 r h

/-- C8: when the loop of `dichotomy` / `golden_section` exits before the
iteration budget is exhausted, the final history record's interval satisfies
`b - a ≤ tol` and `x_min` is the midpoint of that final interval. -/
theorem claim_C8 (f : α → α) (a b tol resphi : α) (delta? : Option α)
    (mi : ℕ) (r : OptimizationResult α) :
    (dichotomy f (a, b) tol delta? mi = .ok r → r.iterations < mi →
      ∃ af bf, r.history.getLast? = some (HistRec.fin af bf r.x_min r.f_min) ∧
        bf - af ≤ tol ∧ r.x_min = (af + bf) / 2) ∧
    (golden_section f (a, b) tol resphi mi = .ok r → r.iterations < mi →
      ∃ af bf, r.history.getLast? = some (HistRec.fin af bf r.x_min r.f_min) ∧
        bf - af ≤ tol ∧ r.x_min = (af + bf) / 2) := by
  constructor
  · intro h hlt
    simp only [dichotomy] at h
    split_ifs at h
    all_goals first
      | exact Except.noConfusion h
      | (injection h with h'
         rw [← h'] at hlt ⊢
         exact ⟨_, _, by rw [List.getLast?_concat],
           dichotomy_loop_exit f tol _ mi a b hlt, rfl⟩)
  · intro h hlt
    simp only [golden_section] at h
    split_ifs at h
    all_goals first
      | exact Except.noConfusion h
      | (injection h with h'
         rw [← h'] at hlt ⊢
         exact ⟨_, _, by rw [List.getLast?_concat],
           golden_loop_exit f tol resphi mi a b _ _ _ _ hlt, rfl⟩)

/-- C8 witness: a `ℚ` dichotomy run that stops by the width test with budget
to spare; `claim_C8` yields its final record, its width bound and the
midpoint property, which evaluation confirms. -/
theorem claim_C8_witness :
    dichotomy (fun x : ℚ => x) (0, 1) (3/4) (some (1/4)) 5 =
      .ok ⟨3/8, 3/8, 1,
        [HistRec.interval 0 1 (1/4) (3/4) (1/4) (3/4),
         HistRec.fin 0 (3/4) (3/8) (3/8)], "Дихотомия"⟩ ∧
    ∃ af bf,
      (OptimizationResult.mk (3/8 : ℚ) (3/8) 1
        [HistRec.interval 0 1 (1/4) (3/4) (1/4) (3/4),
         HistRec.fin 0 (3/4) (3/8) (3/8)] "Дихотомия").history.getLast? =
        some (HistRec.fin af bf (3/8) (3/8)) ∧
      bf - af ≤ 3/4 ∧ (3/8 : ℚ) = (af + bf) / 2 := by
  have hrun : dichotomy (fun x : ℚ => x) (0, 1) (3/4) (some (1/4)) 5 =
      .ok ⟨3/8, 3/8, 1,
        [HistRec.interval 0 1 (1/4) (3/4) (1/4) (3/4),
         HistRec.fin 0 (3/4) (3/8) (3/8)], "Дихотомия"⟩ := by
    norm_num [dichotomy, dichotomy_loop]
  refine ⟨hrun, ?_⟩
  have h := (claim_C8 (fun x : ℚ => x) 0 1 (3/4) (38/100) (some (1/4)) 5 _).1
    hrun (by norm_num)
  simpa using h

/-- C3: for `a < b` and `N ≥ 2`, `passive_search` evaluates `f` at exactly
`N` uniformly spaced points of `[a, b]` including both endpoints, records the
`N` pairs `(x, f x)` in order, returns `iterations = N`, and picks `x_min`
as the sampled point of minimum value with ties resolved by the lowest
index, with `f_min = f x_min`. -/
theorem claim_C3 (f : α → α) (a b : α) (N : ℕ) (hab : a < b) (hN : 2 ≤ N) :
    ∃ r, passive_search f (a, b) N = .ok r ∧
      r.history.length = N ∧
      r.iterations = N ∧
      (∀ i < N, r.history.getD i recD =
        HistRec.point (a + (b - a) * (i : α) / ((N - 1 : ℕ) : α))
          (f (a + (b - a) * (i : α) / ((N - 1 : ℕ) : α)))) ∧
      r.history.getD 0 recD = HistRec.point a (f a) ∧
      r.history.getD (N - 1) recD = HistRec.point b (f b) ∧
      (∀ i : ℕ, i + 1 < N →
        (a + (b - a) * ((i + 1 : ℕ) : α) / ((N - 1 : ℕ) : α)) -
          (a + (b - a) * (i : α) / ((N - 1 : ℕ) : α)) =
          (b - a) / ((N - 1 : ℕ) : α)) ∧
      ∃ k < N, r.x_min = a + (b - a) * (k : α) / ((N - 1 : ℕ) : α) ∧
        r.f_min = f (a + (b - a) * (k : α) / ((N - 1 : ℕ) : α)) ∧
        (∀ j < N, f (a + (b - a) * (k : α) / ((N - 1 : ℕ) : α)) ≤
          f (a + (b - a) * (j : α) / ((N - 1 : ℕ) : α))) ∧
        (∀ j < k, f (a + (b - a) * (k : α) / ((N - 1 : ℕ) : α)) <
          f (a + (b - a) * (j : α) / ((N - 1 : ℕ) : α))) := by
  have hok : passive_search f (a, b) N = .ok
      ⟨(linspace a b N).getD (argminIdx ((linspace a b N).map f)) 0,
        ((linspace a b N).map f).getD (argminIdx ((linspace a b N).map f)) 0,
        N, (linspace a b N).map (fun x => HistRec.point x (f x)),
        "Пассивный поиск"⟩ := by
    simp only [passive_search]
    rw [if_neg (not_not_intro hab), if_neg (Nat.not_lt.mpr hN)]
  have hxs_len : (linspace a b N).length = N := linspace_length a b N
  have hfv_len : ((linspace a b N).map f).length = N := by
    rw [List.length_map, hxs_len]
  have hfv_ne : (linspace a b N).map f ≠ [] := by
    apply List.ne_nil_of_length_pos
    rw [hfv_len]
    omega
  obtain ⟨hjlt, hmin, hfirst⟩ := argminIdx_spec_ne ((linspace a b N).map f) hfv_ne
  rw [hfv_len] at hjlt
  refine ⟨_, hok, ?_, rfl, ?_, ?_, ?_, ?_, ?_⟩
  · rw [List.length_map, hxs_len]
  · intro i hi
    rw [getD_map_point_of_lt f _ i (by rw [hxs_len]; exact hi),
      linspace_getD a b N i hi]
  · rw [getD_map_point_of_lt f _ 0 (by rw [hxs_len]; omega),
      linspace_first a b N (by omega)]
  · rw [getD_map_point_of_lt f _ (N - 1) (by rw [hxs_len]; omega),
      linspace_last a b N hN]
  · intro i hi
    push_cast
    ring
  · refine ⟨argminIdx ((linspace a b N).map f), hjlt, ?_, ?_, ?_, ?_⟩
    · exact linspace_getD a b N _ hjlt
    · rw [getD_map_of_lt f _ _ (by rw [hxs_len]; exact hjlt),
        linspace_getD a b N _ hjlt]
    · intro j hj
      have := hmin j (by rw [hfv_len]; exact hj)
      rw [getD_map_of_lt f _ _ (by rw [hxs_len]; exact hjlt),
        getD_map_of_lt f _ _ (by rw [hxs_len]; exact hj),
        linspace_getD a b N _ hjlt, linspace_getD a b N _ hj] at this
      exact this
    · intro j hj
      have := hfirst j hj
      have hjN : j < N := lt_trans hj hjlt
      rw [getD_map_of_lt f _ _ (by rw [hxs_len]; exact hjlt),
        getD_map_of_lt f _ _ (by rw [hxs_len]; exact hjN),
        linspace_getD a b N _ hjlt, linspace_getD a b N _ hjN] at this
      exact this

/-- C3 witness: `claim_C3` applied to `f = id` on `[0, 1]` with `N = 3`. -/
theorem claim_C3_witness :
    ∃ r, passive_search (fun x : ℚ => x) (0, 1) 3 = .ok r ∧
      r.history.length = 3 ∧ r.iterations = 3 := by
  obtain ⟨r, hok, h1, h2, _⟩ :=
    claim_C3 (fun x : ℚ => x) 0 1 3 (by norm_num) (by norm_num)
  exact ⟨r, hok, h1, h2⟩

/-- C5 (amended): `a < b` holds at every recorded step of the three interval
methods and the returned `x_min` stays inside the original interval — for
`passive_search` and `golden_section` (whose constant satisfies the golden
identity) unconditionally, and for `dichotomy` whenever the effective
`delta ≤ tol / 2`, which includes the source default `delta = tol / 2`.  For
larger `delta` the probes may leave the interval (see the counterexample). -/
theorem claim_C5 (f : α → α) (a b tol resphi : α) (delta? : Option α)
    (N mi : ℕ) (r : OptimizationResult α) :
    (a < b → 2 ≤ N → passive_search f (a, b) N = .ok r →
      (a ≤ r.x_min ∧ r.x_min ≤ b) ∧ ∀ rec ∈ r.history, recWithin a b rec) ∧
    (0 < delta?.getD (tol / 2) → delta?.getD (tol / 2) ≤ tol / 2 →
      dichotomy f (a, b) tol delta? mi = .ok r →
      (a ≤ r.x_min ∧ r.x_min ≤ b) ∧ ∀ rec ∈ r.history, recWithin a b rec) ∧
    (resphi * resphi - 3 * resphi + 1 = 0 → 0 < resphi → resphi < 1 →
      golden_section f (a, b) tol resphi mi = .ok r →
      (a ≤ r.x_min ∧ r.x_min ≤ b) ∧ ∀ rec ∈ r.history, recWithin a b rec) := by
  refine ⟨?_, ?_, ?_⟩
  · intro hab hN h
    have hok : passive_search f (a, b) N = .ok
        ⟨(linspace a b N).getD (argminIdx ((linspace a b N).map f)) 0,
          ((linspace a b N).map f).getD (argminIdx ((linspace a b N).map f)) 0,
          N, (linspace a b N).map (fun x => HistRec.point x (f x)),
          "Пассивный поиск"⟩ := by
      simp only [passive_search]
      rw [if_neg (not_not_intro hab), if_neg (Nat.not_lt.mpr hN)]
    rw [hok] at h
    injection h with h'
    have hfv_len : ((linspace a b N).map f).length = N := by
      rw [List.length_map, linspace_length]
    have hfv_ne : (linspace a b N).map f ≠ [] := by
      apply List.ne_nil_of_length_pos
      rw [hfv_len]
      omega
    obtain ⟨hjlt, _, _⟩ := argminIdx_spec_ne ((linspace a b N).map f) hfv_ne
    rw [hfv_len] at hjlt
    subst h'
    constructor
    · exact linspace_getD_mem_Icc a b N hab hN _ hjlt
    · intro rec hrec
      simp only [List.mem_map] at hrec
      obtain ⟨x, hx, rfl⟩ := hrec
      simp only [linspace, List.mem_map, List.mem_range] at hx
      obtain ⟨i, hi, rfl⟩ := hx
      have := linspace_getD_mem_Icc a b N hab hN i hi
      rw [linspace_getD a b N i hi] at this
      exact this
  · intro hd hd2 h
    simp only [dichotomy] at h
    split_ifs at h with hnb htol hdel
    injection h with h'
    have hab : a < b := hnb
    obtain ⟨⟨g1, g2, g3⟩, g4⟩ :=
      dichotomy_loop_within f tol (delta?.getD (tol / 2)) hd hd2 mi a b hab
    subst h'
    constructor
    · constructor
      · simp only []
        linarith
      · simp only []
        linarith
    · intro rec hrec
      simp only [List.mem_append, List.mem_singleton] at hrec
      rcases hrec with hrec | rfl
      · exact g4 rec hrec
      · exact ⟨g1, g2, g3⟩
  · intro hgid h0 h1 h
    simp only [golden_section] at h
    split_ifs at h with hnb htol
    injection h with h'
    have hab : a < b := hnb
    obtain ⟨⟨g1, g2, g3⟩, g4⟩ :=
      golden_loop_within f tol resphi hgid h0 h1 mi a b
        (a + resphi * (b - a)) (b - resphi * (b - a)) _ _ hab rfl rfl
    subst h'
    constructor
    · constructor
      · simp only []
        linarith
      · simp only []
        linarith
    · intro rec hrec
      simp only [List.mem_append, List.mem_singleton] at hrec
      rcases hrec with hrec | rfl
      · exact g4 rec hrec
      · exact ⟨g1, g2, g3⟩

/-- C5 counterexample: the claim's "every admissible positive delta" fails.
With `f = id`, bounds `(0, 1)`, `tol = 1/2`, `delta = 10` (valid per the
code's checks: positive) and `max_iter = 1`, the run succeeds but returns
`x_min = 21/4`, far outside `[0, 1]`: the probes `m ± delta` left the
interval and the bound update `b = x2` expanded it. -/
theorem claim_C5_counterexample :
    dichotomy (fun x : ℚ => x) (0, 1) (1/2) (some 10) 1 =
      .ok ⟨21/4, 21/4, 1,
        [HistRec.interval 0 1 (-19/2) (21/2) (-19/2) (21/2),
         HistRec.fin 0 (21/2) (21/4) (21/4)], "Дихотомия"⟩ ∧
    ¬ ((21 : ℚ)/4 ≤ 1) := by
  constructor
  · norm_num [dichotomy, dichotomy_loop]
  · norm_num

/-- C5 witness: over `ℝ` with the source's golden constant
`resphi = 2 - (1 + √5)/2` (which satisfies the golden identity), a golden
run, a default-delta dichotomy run and a passive run all stay within the
original interval, via `claim_C5`. -/
theorem claim_C5_witness :
    ((2 - (1 + Real.sqrt 5) / 2) * (2 - (1 + Real.sqrt 5) / 2) -
      3 * (2 - (1 + Real.sqrt 5) / 2) + 1 = 0) ∧
    (0 < 2 - (1 + Real.sqrt 5) / 2) ∧ (2 - (1 + Real.sqrt 5) / 2 < 1) ∧
    golden_section (fun x : ℝ => x) (0, 1) 2 (2 - (1 + Real.sqrt 5) / 2) 5 =
      .ok ⟨1/2, 1/2, 0, [HistRec.fin 0 1 (1/2) (1/2)], "Золотое сечение"⟩ ∧
    ((0 ≤ (1:ℝ)/2 ∧ (1:ℝ)/2 ≤ 1) ∧
      ∀ rec ∈ [HistRec.fin (0:ℝ) 1 (1/2) (1/2)], recWithin 0 1 rec) ∧
    dichotomy (fun x : ℝ => x) (0, 1) (1/2) none 1 =
      .ok ⟨3/8, 3/8, 1,
        [HistRec.interval 0 1 (1/4) (3/4) (1/4) (3/4),
         HistRec.fin 0 (3/4) (3/8) (3/8)], "Дихотомия"⟩ ∧
    ((0 ≤ (3:ℝ)/8 ∧ (3:ℝ)/8 ≤ 1) ∧
      ∀ rec ∈ [HistRec.interval (0:ℝ) 1 (1/4) (3/4) (1/4) (3/4),
        HistRec.fin (0:ℝ) (3/4) (3/8) (3/8)], recWithin 0 1 rec) := by
  have h5 : Real.sqrt 5 ^ 2 = 5 := Real.sq_sqrt (by norm_num)
  have hs0 : (0:ℝ) ≤ Real.sqrt 5 := Real.sqrt_nonneg 5
  have hgid : (2 - (1 + Real.sqrt 5) / 2) * (2 - (1 + Real.sqrt 5) / 2) -
      3 * (2 - (1 + Real.sqrt 5) / 2) + 1 = 0 := by
    linear_combination (1/4 : ℝ) * h5
  have hpos : 0 < 2 - (1 + Real.sqrt 5) / 2 := by nlinarith
  have hlt1 : 2 - (1 + Real.sqrt 5) / 2 < 1 := by nlinarith
  have hgold : golden_section (fun x : ℝ => x) (0, 1) 2
      (2 - (1 + Real.sqrt 5) / 2) 5 =
      .ok ⟨1/2, 1/2, 0, [HistRec.fin 0 1 (1/2) (1/2)], "Золотое сечение"⟩ := by
    simp only [golden_section]
    rw [if_neg (by norm_num), if_neg (by norm_num),
      golden_loop_stop _ _ _ _ _ _ _ _ _ _ (by norm_num)]
    norm_num
  have hdich : dichotomy (fun x : ℝ => x) (0, 1) (1/2) none 1 =
      .ok ⟨3/8, 3/8, 1,
        [HistRec.interval 0 1 (1/4) (3/4) (1/4) (3/4),
         HistRec.fin 0 (3/4) (3/8) (3/8)], "Дихотомия"⟩ := by
    norm_num [dichotomy, dichotomy_loop]
  refine ⟨hgid, hpos, hlt1, hgold, ?_, hdich, ?_⟩
  · exact (claim_C5 (fun x : ℝ => x) 0 1 2 (2 - (1 + Real.sqrt 5) / 2) none
      5 5 _).2.2 hgid hpos hlt1 hgold
  · exact (claim_C5 (fun x : ℝ => x) 0 1 (1/2) (2 - (1 + Real.sqrt 5) / 2) none
      5 1 _).2.1 (by norm_num) (by norm_num) hdich

/-- C6: every `golden_section` iteration narrows the interval by the exact
constant factor `1 - resphi` (which is `φ - 1 ≈ 0.618` for the source's
`resphi = 2 - φ`), strictly and independently of the objective: consecutive
history records — the interior records and the final record, which holds the
interval left by the last iteration — have widths in that exact ratio, so
every iteration of the run is covered.  Consecutive interior records share a
probe (one of the two `(x, f x)` pairs is reused), and the loop performs
exactly one new evaluation of `f` per iteration (`evals = iterations`). -/
theorem claim_C6 (f : α → α) (a b tol resphi : α) (mi : ℕ)
    (hgid : resphi * resphi - 3 * resphi + 1 = 0)
    (h0 : 0 < resphi) (h1 : resphi < 1) (hab : a < b)
    (r : OptimizationResult α)
    (h : golden_section f (a, b) tol resphi mi = .ok r) :
    (∀ k, k + 1 < r.history.length →
      wd (r.history.getD (k + 1) recD) =
        (1 - resphi) * wd (r.history.getD k recD) ∧
      wd (r.history.getD (k + 1) recD) < wd (r.history.getD k recD)) ∧
    (∀ k, k + 1 < r.iterations →
      reuseStep (r.history.getD k recD) (r.history.getD (k + 1) recD)) ∧
    (golden_loop f tol resphi mi a b (a + resphi * (b - a))
        (b - resphi * (b - a)) (f (a + resphi * (b - a)))
        (f (b - resphi * (b - a)))).evals = r.iterations := by
  simp only [golden_section] at h
  split_ifs at h with hnb htol
  injection h with h'
  have hhist : r.history =
      (golden_loop f tol resphi mi a b (a + resphi * (b - a))
      (b - resphi * (b - a)) (f (a + resphi * (b - a)))
      (f (b - resphi * (b - a)))).hist ++
      [HistRec.fin (golden_loop f tol resphi mi a b (a + resphi * (b - a))
      (b - resphi * (b - a)) (f (a + resphi * (b - a)))
      (f (b - resphi * (b - a)))).a (golden_loop f tol resphi mi a b (a + resphi * (b - a))
      (b - resphi * (b - a)) (f (a + resphi * (b - a)))
      (f (b - resphi * (b - a)))).b
        (((golden_loop f tol resphi mi a b (a + resphi * (b - a))
      (b - resphi * (b - a)) (f (a + resphi * (b - a)))
      (f (b - resphi * (b - a)))).a + (golden_loop f tol resphi mi a b (a + resphi * (b - a))
      (b - resphi * (b - a)) (f (a + resphi * (b - a)))
      (f (b - resphi * (b - a)))).b) / 2)
        (f (((golden_loop f tol resphi mi a b (a + resphi * (b - a))
      (b - resphi * (b - a)) (f (a + resphi * (b - a)))
      (f (b - resphi * (b - a)))).a + (golden_loop f tol resphi mi a b (a + resphi * (b - a))
      (b - resphi * (b - a)) (f (a + resphi * (b - a)))
      (f (b - resphi * (b - a)))).b) / 2))] := by
    rw [← h']
  have hiter : r.iterations = (golden_loop f tol resphi mi a b (a + resphi * (b - a))
      (b - resphi * (b - a)) (f (a + resphi * (b - a)))
      (f (b - resphi * (b - a)))).iters := by
    rw [← h']
  have hlen := golden_loop_length f tol resphi mi a b (a + resphi * (b - a))
    (b - resphi * (b - a)) (f (a + resphi * (b - a))) (f (b - resphi * (b - a)))
  have hwidths := golden_loop_widths f tol resphi hgid mi a b
    (a + resphi * (b - a)) (b - resphi * (b - a)) (f (a + resphi * (b - a)))
    (f (b - resphi * (b - a))) rfl rfl
  have hfinw := golden_loop_final_width f tol resphi hgid mi a b
    (a + resphi * (b - a)) (b - resphi * (b - a)) (f (a + resphi * (b - a)))
    (f (b - resphi * (b - a))) rfl rfl
  have hw0 : (0 : α) < b - a := by linarith
  have h1r : (0 : α) < 1 - resphi := by linarith
  have hfull : ∀ j < (golden_loop f tol resphi mi a b (a + resphi * (b - a))
      (b - resphi * (b - a)) (f (a + resphi * (b - a)))
      (f (b - resphi * (b - a)))).hist.length + 1,
      wd (((golden_loop f tol resphi mi a b (a + resphi * (b - a))
      (b - resphi * (b - a)) (f (a + resphi * (b - a)))
      (f (b - resphi * (b - a)))).hist ++
        [HistRec.fin (golden_loop f tol resphi mi a b (a + resphi * (b - a))
      (b - resphi * (b - a)) (f (a + resphi * (b - a)))
      (f (b - resphi * (b - a)))).a (golden_loop f tol resphi mi a b (a + resphi * (b - a))
      (b - resphi * (b - a)) (f (a + resphi * (b - a)))
      (f (b - resphi * (b - a)))).b
          (((golden_loop f tol resphi mi a b (a + resphi * (b - a))
      (b - resphi * (b - a)) (f (a + resphi * (b - a)))
      (f (b - resphi * (b - a)))).a + (golden_loop f tol resphi mi a b (a + resphi * (b - a))
      (b - resphi * (b - a)) (f (a + resphi * (b - a)))
      (f (b - resphi * (b - a)))).b) / 2)
          (f (((golden_loop f tol resphi mi a b (a + resphi * (b - a))
      (b - resphi * (b - a)) (f (a + resphi * (b - a)))
      (f (b - resphi * (b - a)))).a + (golden_loop f tol resphi mi a b (a + resphi * (b - a))
      (b - resphi * (b - a)) (f (a + resphi * (b - a)))
      (f (b - resphi * (b - a)))).b) / 2))]).getD j recD) =
        (1 - resphi) ^ j * (b - a) := by
    intro j hj
    rcases Nat.lt_or_ge j (golden_loop f tol resphi mi a b (a + resphi * (b - a))
      (b - resphi * (b - a)) (f (a + resphi * (b - a)))
      (f (b - resphi * (b - a)))).hist.length with hlt | hge
    · rw [List.getD_append _ _ _ _ hlt, hwidths j hlt]
    · have hj' : j = (golden_loop f tol resphi mi a b (a + resphi * (b - a))
      (b - resphi * (b - a)) (f (a + resphi * (b - a)))
      (f (b - resphi * (b - a)))).hist.length := by omega
      subst hj'
      rw [List.getD_append_right _ _ _ _ (le_refl _)]
      simp only [Nat.sub_self, List.getD_cons_zero, wd]
      rw [hlen]
      exact hfinw
  refine ⟨?_, ?_, ?_⟩
  · intro k hk
    rw [hhist] at hk ⊢
    have hk1 : k + 1 < (golden_loop f tol resphi mi a b (a + resphi * (b - a))
      (b - resphi * (b - a)) (f (a + resphi * (b - a)))
      (f (b - resphi * (b - a)))).hist.length + 1 := by
      simpa using hk
    have hk0 : k < (golden_loop f tol resphi mi a b (a + resphi * (b - a))
      (b - resphi * (b - a)) (f (a + resphi * (b - a)))
      (f (b - resphi * (b - a)))).hist.length + 1 := by omega
    rw [hfull (k + 1) hk1, hfull k hk0]
    constructor
    · rw [pow_succ]
      ring
    · rw [pow_succ]
      have hp : (0 : α) < (1 - resphi) ^ k := pow_pos h1r k
      have hlt : (1 - resphi) ^ k * (1 - resphi) < (1 - resphi) ^ k * 1 := by
        apply mul_lt_mul_of_pos_left _ hp
        linarith
      rw [mul_one] at hlt
      exact mul_lt_mul_of_pos_right hlt hw0
  · intro k hk
    rw [hiter] at hk
    rw [hhist]
    have hk' : k + 1 < (golden_loop f tol resphi mi a b (a + resphi * (b - a))
      (b - resphi * (b - a)) (f (a + resphi * (b - a)))
      (f (b - resphi * (b - a)))).hist.length := by
      rw [hlen]
      exact hk
    have hgk : k < (golden_loop f tol resphi mi a b (a + resphi * (b - a))
      (b - resphi * (b - a)) (f (a + resphi * (b - a)))
      (f (b - resphi * (b - a)))).hist.length := by omega
    rw [List.getD_append _ _ _ _ hk', List.getD_append _ _ _ _ hgk]
    exact golden_loop_reuse f tol resphi mi a b (a + resphi * (b - a))
      (b - resphi * (b - a)) (f (a + resphi * (b - a)))
      (f (b - resphi * (b - a))) k hk'
  · rw [hiter]
    exact golden_loop_evals f tol resphi mi a b (a + resphi * (b - a))
      (b - resphi * (b - a)) (f (a + resphi * (b - a)))
      (f (b - resphi * (b - a)))

/-- C6 witness: `claim_C6` over `ℝ` at the source's constant
`resphi = 2 - (1 + √5)/2`, whose golden identity and range are discharged
explicitly, on a run of two genuine narrowing iterations (`f = id` on
`(0, 1)` with `tol = 1/2`): every consecutive pair of the three history
records narrows by the factor `1 - resphi`, the two interior records share
a probe, and the loop evaluates `f` exactly `iterations` times. -/
theorem claim_C6_witness :
    ((2 - (1 + Real.sqrt 5) / 2) * (2 - (1 + Real.sqrt 5) / 2) -
      3 * (2 - (1 + Real.sqrt 5) / 2) + 1 = 0) ∧
    (0 < 2 - (1 + Real.sqrt 5) / 2) ∧ (2 - (1 + Real.sqrt 5) / 2 < 1) ∧
    ((0:ℝ) < 1) ∧
    ∃ res, golden_section (fun x : ℝ => x) (0, 1) (1/2)
        (2 - (1 + Real.sqrt 5) / 2) 5 = .ok res ∧
      res.iterations = 2 ∧ res.history.length = 3 ∧
      (∀ k, k + 1 < res.history.length →
        wd (res.history.getD (k + 1) recD) =
          (1 - (2 - (1 + Real.sqrt 5) / 2)) * wd (res.history.getD k recD) ∧
        wd (res.history.getD (k + 1) recD) < wd (res.history.getD k recD)) ∧
      (∀ k, k + 1 < res.iterations →
        reuseStep (res.history.getD k recD) (res.history.getD (k + 1) recD)) ∧
      (golden_loop (fun x : ℝ => x) (1/2) (2 - (1 + Real.sqrt 5) / 2) 5 0 1
        (0 + (2 - (1 + Real.sqrt 5) / 2) * (1 - 0))
        (1 - (2 - (1 + Real.sqrt 5) / 2) * (1 - 0))
        (0 + (2 - (1 + Real.sqrt 5) / 2) * (1 - 0))
        (1 - (2 - (1 + Real.sqrt 5) / 2) * (1 - 0))).evals =
        res.iterations := by
  have h5 : Real.sqrt 5 ^ 2 = 5 := Real.sq_sqrt (by norm_num)
  have hs0 : (0:ℝ) ≤ Real.sqrt 5 := Real.sqrt_nonneg 5
  have hgid : (2 - (1 + Real.sqrt 5) / 2) * (2 - (1 + Real.sqrt 5) / 2) -
      3 * (2 - (1 + Real.sqrt 5) / 2) + 1 = 0 := by
    linear_combination (1/4 : ℝ) * h5
  have hpos : 0 < 2 - (1 + Real.sqrt 5) / 2 := by nlinarith
  have hlt1 : 2 - (1 + Real.sqrt 5) / 2 < 1 := by nlinarith
  have hbr1 : ((0:ℝ) + (2 - (1 + Real.sqrt 5) / 2) * (1 - 0)) <
      (1 - (2 - (1 + Real.sqrt 5) / 2) * (1 - 0)) := by nlinarith
  have hw2 : ((1:ℝ) - (2 - (1 + Real.sqrt 5) / 2) * (1 - 0)) - 0 > 1/2 := by
    nlinarith
  have hbr2 : ((0:ℝ) + (2 - (1 + Real.sqrt 5) / 2) *
      ((1 - (2 - (1 + Real.sqrt 5) / 2) * (1 - 0)) - 0)) <
      (0 + (2 - (1 + Real.sqrt 5) / 2) * (1 - 0)) := by
    nlinarith [mul_pos hpos hpos]
  have hstop : ¬ ((0:ℝ) + (2 - (1 + Real.sqrt 5) / 2) * (1 - 0)) - 0 > 1/2 := by
    push_neg
    nlinarith
  have hrun := golden_section_two_steps (fun x : ℝ => x) 0 1 (1/2)
    (2 - (1 + Real.sqrt 5) / 2) 3 (by norm_num) (by norm_num) (by norm_num)
    hbr1 hw2 hbr2 hstop
  have hmain := claim_C6 (fun x : ℝ => x) 0 1 (1/2)
    (2 - (1 + Real.sqrt 5) / 2) 5 hgid hpos hlt1 (by norm_num) _ hrun
  exact ⟨hgid, hpos, hlt1, by norm_num, _, hrun, rfl, rfl, hmain.1,
    hmain.2.1, hmain.2.2⟩

/-- C4: `newton_tangent` fails with `MissingSecondDerivative` before any
iteration when `d2f` is absent (for every other argument, so nothing is
evaluated); it fails with `DegenerateCurvature` when `d2f x = 0` at an
iterate where `|df x| ≥ tol` (shown at the first iterate), and then no
result — hence no history — is returned (`Except.error` carries nothing);
it runs at most `max_iter` steps, an error can only be one of those two
kinds, exhausting the budget is not an error (with `d2f` never zero the run
always returns a result), and the returned `iterations = len(history)`. -/
theorem claim_C4 (f df : α → α) (x0 tol : α) (max_iter : ℕ) :
    (∀ (g : α → α) (y t : α) (mi : ℕ),
      newton_tangent f g none y t mi = .error .missingSecondDerivative) ∧
    (∀ (d2f : α → α) (mi : ℕ), 1 ≤ mi → ¬ |df x0| < tol → d2f x0 = 0 →
      newton_tangent f df (some d2f) x0 tol mi = .error .degenerateCurvature) ∧
    (∀ (d2f : α → α) (r : OptimizationResult α),
      newton_tangent f df (some d2f) x0 tol max_iter = .ok r →
      r.iterations = r.history.length ∧ r.iterations ≤ max_iter ∧
        r.f_min = f r.x_min) ∧
    (∀ (d2f : α → α) (e : OptError),
      newton_tangent f df (some d2f) x0 tol max_iter = .error e →
      e = .degenerateCurvature) ∧
    (∀ d2f : α → α, (∀ y, d2f y ≠ 0) →
      ∃ r, newton_tangent f df (some d2f) x0 tol max_iter = .ok r) := by
  refine ⟨?_, ?_, ?_, ?_, ?_⟩
  · intro g y t mi
    rfl
  · intro d2f mi hmi hg hz
    obtain ⟨k, rfl⟩ : ∃ k, mi = k + 1 := ⟨mi - 1, by omega⟩
    simp only [newton_tangent,
      newton_loop_degenerate_head f df d2f tol k x0 hg hz]
  · intro d2f r h
    simp only [newton_tangent] at h
    cases hrec : newton_loop f df d2f tol max_iter x0 with
    | error e => rw [hrec] at h; exact Except.noConfusion h
    | ok p =>
      rw [hrec] at h
      injection h with h'
      subst h'
      refine ⟨rfl, ?_, rfl⟩
      exact newton_loop_ok_length f df d2f tol max_iter x0 p.1 p.2
        (by rw [hrec])
  · intro d2f e h
    simp only [newton_tangent] at h
    cases hrec : newton_loop f df d2f tol max_iter x0 with
    | error e' =>
      rw [hrec] at h
      injection h with h'
      exact h' ▸ newton_loop_error_classify f df d2f tol max_iter x0 e' hrec
    | ok p => rw [hrec] at h; exact Except.noConfusion h
  · intro d2f hnz
    obtain ⟨p, hp⟩ := newton_loop_total f df d2f tol hnz max_iter x0
    cases p with
    | mk x hist =>
      exact ⟨⟨x, f x, hist.length, hist, "Касательных (Ньютона)"⟩,
        by simp only [newton_tangent, hp]⟩

/-- C4 witness: `claim_C4` over `ℚ`: a missing `d2f` errors before anything
runs; flat curvature with a non-converged gradient errors with
`DegenerateCurvature`; a never-zero `d2f` always yields a result whose
`iterations = len(history) ≤ max_iter`. -/
theorem claim_C4_witness :
    newton_tangent (fun x : ℚ => x ^ 2) (fun x => 2 * x) none 0 1 100 =
      .error .missingSecondDerivative ∧
    newton_tangent (fun x : ℚ => x) (fun _ => 1) (some fun _ => 0) 0 (1/2) 3 =
      .error .degenerateCurvature ∧
    ∃ r, newton_tangent (fun x : ℚ => x ^ 2) (fun x => 2 * x)
        (some fun _ => 2) 3 (1/2) 7 = .ok r ∧
      r.iterations = r.history.length ∧ r.iterations ≤ 7 := by
  refine ⟨?_, ?_, ?_⟩
  · exact (claim_C4 (fun x : ℚ => x ^ 2) (fun x => 2 * x) 0 1 100).1 _ 0 1 100
  · exact (claim_C4 (fun x : ℚ => x) (fun _ => 1) 0 (1/2) 3).2.1 _ 3
      (by norm_num) (by norm_num) rfl
  · obtain ⟨r, hr⟩ := (claim_C4 (fun x : ℚ => x ^ 2) (fun x => 2 * x) 3
      (1/2) 7).2.2.2.2 (fun _ => 2) (fun y => by norm_num)
    obtain ⟨h1, h2, _⟩ := (claim_C4 (fun x : ℚ => x ^ 2) (fun x => 2 * x) 3
      (1/2) 7).2.2.1 (fun _ => 2) r hr
    exact ⟨r, hr, h1, h2⟩

/-- C9: `secant_on_gradient` evaluates the gradient with the analytic `df`
when supplied and with the central finite difference
`(f (x + h_fd) - f (x - h_fd)) / (2 h_fd)` otherwise; it records the two
seed points `x0`, `x1` first; whenever `|g_curr - g_prev| < 1e-20` the loop
stops silently (returning a result, never an error — the function's type has
no error case); and `iterations = len(history) ≥ 2`, the two seed records
included. -/
theorem claim_C9 (f : α → α) (df? : Option (α → α)) (x0 x1 tol h_fd : α)
    (mi : ℕ) :
    (∀ (d : α → α) (x : α), df? = some d → sec_grad f df? h_fd x = d x) ∧
    (df? = none → ∀ x : α, sec_grad f df? h_fd x =
      (f (x + h_fd) - f (x - h_fd)) / (2 * h_fd)) ∧
    (secant_on_gradient f df? x0 x1 tol mi h_fd).history.take 2 =
      [HistRec.secantRec x0 (sec_grad f df? h_fd x0) (f x0),
       HistRec.secantRec x1 (sec_grad f df? h_fd x1) (f x1)] ∧
    (secant_on_gradient f df? x0 x1 tol mi h_fd).iterations =
      (secant_on_gradient f df? x0 x1 tol mi h_fd).history.length ∧
    2 ≤ (secant_on_gradient f df? x0 x1 tol mi h_fd).iterations ∧
    (|sec_grad f df? h_fd x1 - sec_grad f df? h_fd x0| < secantGuard →
      secant_on_gradient f df? x0 x1 tol mi h_fd =
        ⟨x1, f x1, 2,
          [HistRec.secantRec x0 (sec_grad f df? h_fd x0) (f x0),
           HistRec.secantRec x1 (sec_grad f df? h_fd x1) (f x1)],
          "Секущих (по производной)"⟩) ∧
    (∀ (grad : α → α) (fuel : ℕ) (xp xc gp gc : α),
      |gc - gp| < secantGuard →
      secant_loop grad f tol fuel xp xc gp gc = (xc, [])) := by
  refine ⟨?_, ?_, ?_, ?_, ?_, ?_, ?_⟩
  · intro d x hdf
    subst hdf
    rfl
  · intro hdf x
    subst hdf
    rfl
  · rfl
  · rfl
  · simp only [secant_on_gradient, List.length_append, List.length_cons,
      List.length_nil]
    omega
  · intro hg
    simp only [secant_on_gradient,
      secant_loop_guard (sec_grad f df? h_fd) f tol mi x0 x1 _ _ hg]
    rfl
  · intro grad fuel xp xc gp gc hg
    exact secant_loop_guard grad f tol fuel xp xc gp gc hg

/-- C9 witness: `claim_C9` over `ℚ`: with a constant analytic gradient the
seed gradients coincide, so the run stops silently right after the two seed
records with `iterations = 2`; the finite-difference form is also checked at
a concrete point. -/
theorem claim_C9_witness :
    secant_on_gradient (fun x : ℚ => x) (some fun _ => 5) 0 1 (1/2) 4
        (1/1000) =
      ⟨1, 1, 2, [HistRec.secantRec 0 5 0, HistRec.secantRec 1 5 1],
        "Секущих (по производной)"⟩ ∧
    sec_grad (fun x : ℚ => x) none (1/1000) 0 =
      ((fun x : ℚ => x) (0 + 1/1000) - (fun x : ℚ => x) (0 - 1/1000)) /
        (2 * (1/1000)) := by
  constructor
  · have h := (claim_C9 (fun x : ℚ => x) (some fun _ => 5) 0 1 (1/2) (1/1000)
      4).2.2.2.2.2.1 (by norm_num [sec_grad, secantGuard])
    rw [h]
    norm_num [sec_grad]
  · exact (claim_C9 (fun x : ℚ => x) none 0 1 (1/2) (1/1000) 4).2.1 rfl 0

/-- C2: with `prefer` unset, `auto_select_and_run` dispatches in strict
priority order with first match winning: `df`, `d2f`, `x0` all present run
Newton (`max_iter = 100`); otherwise `x0` and `x1` both present run the
secant method with the given `df` option (`max_iter = 200`,
`h_fd = 1e-6`); otherwise `bounds` with `samples` run passive search;
otherwise `bounds` alone runs golden section (`max_iter = 10 000`); with
nothing usable it raises `InsufficientData`.  In each successful case the
result's `method` string names the chosen algorithm. -/
theorem claim_C2 (f : α → α) (tol resphi : α) :
    (∀ (bounds : Option (α × α)) (samples : Option ℕ) (d d2 : α → α)
        (x : α) (y1 : Option α),
      auto_select_and_run f bounds tol samples (some d) (some d2) (some x) y1
          none resphi = newton_tangent f d (some d2) x tol 100 ∧
      ∀ r, auto_select_and_run f bounds tol samples (some d) (some d2)
          (some x) y1 none resphi = .ok r →
        r.method = "Касательных (Ньютона)") ∧
    (∀ (bounds : Option (α × α)) (samples : Option ℕ)
        (df d2f : Option (α → α)) (a0 a1 : α),
      d2f = none ∨ df = none →
      auto_select_and_run f bounds tol samples df d2f (some a0) (some a1)
          none resphi =
        .ok (secant_on_gradient f df a0 a1 tol 200 (1 / 1000000)) ∧
      ∀ r, auto_select_and_run f bounds tol samples df d2f (some a0)
          (some a1) none resphi = .ok r →
        r.method = "Секущих (по производной)") ∧
    (∀ (bs : α × α) (s : ℕ) (df d2f : Option (α → α)) (y0 y1 : Option α),
      ¬ (d2f ≠ none ∧ df ≠ none ∧ y0 ≠ none) →
      ¬ (y0 ≠ none ∧ y1 ≠ none) →
      auto_select_and_run f (some bs) tol (some s) df d2f y0 y1 none resphi =
        passive_search f bs s ∧
      ∀ r, auto_select_and_run f (some bs) tol (some s) df d2f y0 y1 none
          resphi = .ok r → r.method = "Пассивный поиск") ∧
    (∀ (bs : α × α) (df d2f : Option (α → α)) (y0 y1 : Option α),
      ¬ (d2f ≠ none ∧ df ≠ none ∧ y0 ≠ none) →
      ¬ (y0 ≠ none ∧ y1 ≠ none) →
      auto_select_and_run f (some bs) tol none df d2f y0 y1 none resphi =
        golden_section f bs tol resphi 10000 ∧
      ∀ r, auto_select_and_run f (some bs) tol none df d2f y0 y1 none resphi =
        .ok r → r.method = "Золотое сечение") ∧
    (∀ (samples : Option ℕ) (df d2f : Option (α → α)) (y0 y1 : Option α),
      ¬ (d2f ≠ none ∧ df ≠ none ∧ y0 ≠ none) →
      ¬ (y0 ≠ none ∧ y1 ≠ none) →
      auto_select_and_run f none tol samples df d2f y0 y1 none resphi =
        .error .insufficientData) := by
  have hsec_method : ∀ (df : Option (α → α)) (a0 a1 : α),
      (secant_on_gradient f df a0 a1 tol 200 (1 / 1000000)).method =
        "Секущих (по производной)" := by
    intro df a0 a1
    rfl
  refine ⟨?_, ?_, ?_, ?_, ?_⟩
  · intro bounds samples d d2 x y1
    have heq : auto_select_and_run f bounds tol samples (some d) (some d2)
        (some x) y1 none resphi = newton_tangent f d (some d2) x tol 100 := rfl
    exact ⟨heq, fun r h => newton_tangent_ok_method f d (some d2) x tol 100 r
      (heq ▸ h)⟩
  · intro bounds samples df d2f a0 a1 hor
    have heq : auto_select_and_run f bounds tol samples df d2f (some a0)
        (some a1) none resphi =
        .ok (secant_on_gradient f df a0 a1 tol 200 (1 / 1000000)) := by
      rcases hor with rfl | rfl
      · rfl
      · cases d2f with
        | none => rfl
        | some d2 => rfl
    refine ⟨heq, ?_⟩
    intro r h
    rw [heq] at h
    injection h with h'
    rw [← h']
    exact hsec_method df a0 a1
  · intro bs s df d2f y0 y1 hc1 hc2
    have heq : auto_select_and_run f (some bs) tol (some s) df d2f y0 y1 none
        resphi = passive_search f bs s := by
      rcases y0 with _ | v0
      · rcases d2f with _ | d2 <;> rcases df with _ | d <;>
          rcases y1 with _ | v1 <;> rfl
      · have hy1 : y1 = none := by
          rcases y1 with _ | v1
          · rfl
          · exact absurd ⟨by simp, by simp⟩ hc2
        subst hy1
        have hdor : d2f = none ∨ df = none := by
          by_contra hcon
          push_neg at hcon
          exact hc1 ⟨hcon.1, hcon.2, by simp⟩
        rcases hdor with rfl | rfl
        · rcases df with _ | d <;> rfl
        · rcases d2f with _ | d2 <;> rfl
    exact ⟨heq, fun r h => passive_search_ok_method f bs s r (heq ▸ h)⟩
  · intro bs df d2f y0 y1 hc1 hc2
    have heq : auto_select_and_run f (some bs) tol none df d2f y0 y1 none
        resphi = golden_section f bs tol resphi 10000 := by
      rcases y0 with _ | v0
      · rcases d2f with _ | d2 <;> rcases df with _ | d <;>
          rcases y1 with _ | v1 <;> rfl
      · have hy1 : y1 = none := by
          rcases y1 with _ | v1
          · rfl
          · exact absurd ⟨by simp, by simp⟩ hc2
        subst hy1
        have hdor : d2f = none ∨ df = none := by
          by_contra hcon
          push_neg at hcon
          exact hc1 ⟨hcon.1, hcon.2, by simp⟩
        rcases hdor with rfl | rfl
        · rcases df with _ | d <;> rfl
        · rcases d2f with _ | d2 <;> rfl
    exact ⟨heq, fun r h => golden_section_ok_method f bs tol resphi 10000 r
      (heq ▸ h)⟩
  · intro samples df d2f y0 y1 hc1 hc2
    rcases y0 with _ | v0
    · rcases d2f with _ | d2 <;> rcases df with _ | d <;>
        rcases y1 with _ | v1 <;> rcases samples with _ | s <;> rfl
    · have hy1 : y1 = none := by
        rcases y1 with _ | v1
        · rfl
        · exact absurd ⟨by simp, by simp⟩ hc2
      subst hy1
      have hdor : d2f = none ∨ df = none := by
        by_contra hcon
        push_neg at hcon
        exact hc1 ⟨hcon.1, hcon.2, by simp⟩
      rcases hdor with rfl | rfl
      · rcases df with _ | d <;> rcases samples with _ | s <;> rfl
      · rcases d2f with _ | d2 <;> rcases samples with _ | s <;> rfl

/-- C2 witness: `claim_C2` over `ℚ`: two start points without derivatives
dispatch to the secant method, bounds alone dispatch to golden section, and
no usable data raises `InsufficientData`. -/
theorem claim_C2_witness :
    auto_select_and_run (fun x : ℚ => x) (some (0, 1)) 1 none none none
        (some 0) (some 1) none (38/100) =
      .ok (secant_on_gradient (fun x : ℚ => x) none 0 1 1 200 (1/1000000)) ∧
    auto_select_and_run (fun x : ℚ => x) (some (0, 1)) 1 none none none
        none none none (38/100) =
      golden_section (fun x : ℚ => x) (0, 1) 1 (38/100) 10000 ∧
    auto_select_and_run (fun x : ℚ => x) none 1 none none none none none
        none (38/100) = .error .insufficientData := by
  refine ⟨?_, ?_, ?_⟩
  · exact ((claim_C2 (fun x : ℚ => x) 1 (38/100)).2.1 (some (0, 1)) none
      none none 0 1 (Or.inl rfl)).1
  · exact ((claim_C2 (fun x : ℚ => x) 1 (38/100)).2.2.2.1 (0, 1) none none
      none none (by simp) (by simp)).1
  · exact (claim_C2 (fun x : ℚ => x) 1 (38/100)).2.2.2.2 none none none
      none none (by simp) (by simp)

/-- C1 (amended): at a narrowing step where `f x1 = f x2` the tie takes the
else-path of the `f1 < f2` comparison, and that branch sets `a = x1`: it
discards the portion of the interval to the LEFT of `x1` and keeps the
right part `[x1, b]`.  (The frozen claim instead says the right half is
discarded — see the counterexample.) -/
theorem claim_C1 (f : α → α) (tol delta : α) (fuel : ℕ) (a b : α)
    (hw : b - a > tol)
    (htie : f ((a + b) / 2 - delta) = f ((a + b) / 2 + delta)) :
    dichotomy_loop f tol delta (fuel + 1) a b =
      ⟨(dichotomy_loop f tol delta fuel ((a + b) / 2 - delta) b).a,
       (dichotomy_loop f tol delta fuel ((a + b) / 2 - delta) b).b,
       HistRec.interval a b ((a + b) / 2 - delta) ((a + b) / 2 + delta)
           (f ((a + b) / 2 - delta)) (f ((a + b) / 2 + delta)) ::
         (dichotomy_loop f tol delta fuel ((a + b) / 2 - delta) b).hist,
       (dichotomy_loop f tol delta fuel ((a + b) / 2 - delta) b).iters + 1⟩ := by
  simp only [dichotomy_loop]
  rw [if_pos hw, if_neg (by rw [htie]; exact lt_irrefl _)]

/-- C1 counterexample: with `f x = (x - 1/2)²` on `(0, 1)`, `tol = 1/2`,
`delta = 1/8`, `max_iter = 1`, the only step is a tie
(`f1 = f2 = 1/64`, recorded in the history), yet the final record's interval
is `[3/8, 1]`: its upper bound stayed `b = 1 > x2 = 5/8`, so the portion to
the right was NOT removed — the left portion `[0, 3/8]` was. -/
theorem claim_C1_counterexample :
    dichotomy (fun x : ℚ => (x - 1/2) ^ 2) (0, 1) (1/2) (some (1/8)) 1 =
      .ok ⟨11/16, 9/256, 1,
        [HistRec.interval 0 1 (3/8) (5/8) (1/64) (1/64),
         HistRec.fin (3/8) 1 (11/16) (9/256)], "Дихотомия"⟩ ∧
    ¬ ((1 : ℚ) ≤ 5/8) := by
  constructor
  · norm_num [dichotomy, dichotomy_loop]
  · norm_num

/-- C1 witness: `claim_C1` on a constant objective (every comparison is a
tie): one step from `(0, 1)` with `delta = 1/8` keeps the right part
`[3/8, 1]`. -/
theorem claim_C1_witness :
    ((1 : ℚ) - 0 > 1/2) ∧
    dichotomy_loop (fun _ : ℚ => (0 : ℚ)) (1/2) (1/8) (0 + 1) 0 1 =
      ⟨3/8, 1, [HistRec.interval 0 1 (3/8) (5/8) 0 0], 1⟩ := by
  have h := claim_C1 (fun _ : ℚ => (0 : ℚ)) (1/2) (1/8) 0 0 1 (by norm_num) rfl
  refine ⟨by norm_num, ?_⟩
  rw [h]
  norm_num [dichotomy_loop]

end Optim
